import Mathlib

/-
Verification development for the blk-reader repository.

The development shallowly embeds the two core components of the source:

* `src/chain.rs` — the chain assembler `Chain<I, D>`: a forest of blocks
  keyed by block id, with an orphan queue, on-demand depth computation and
  a `pop_head` operation that re-roots the forest and prunes losing
  branches.  The source represents the forest with `Rc<RefCell<Node>>`
  pointers (`prev` back references and a `next` list per node); here the
  forest under `head` is an inductive tree (children in insertion order,
  mirroring `Node::add_next` which appends), and the `nodes` B-tree map is
  tracked by its key set (its values are the shared tree nodes themselves).
* `src/block.rs` — the framed-file decoder / reader driver `BlockReader`:
  byte-level record framing (magic, LE size, 80-byte header, tx blob),
  driver-level insertion draining the chain while the confirmation depth
  (10) is reached, callbacks and stop/cap checks.  Rust `unwrap()` panics
  on decode errors are modelled by an explicit `panicked` outcome; the
  magic-mismatch branch (which prints the file path and offset and then
  returns an error) is modelled by a `corrupt path offset` outcome.  The
  double-SHA256 block hash is an external collaborator and is a parameter
  `hashFn` of the byte-level development.

Machine integers: block heights and sizes are `u32`/`usize` in the source;
all realistic runs stay far below `2^32`, and the only place a wrap could
occur (the `vec![0; size - 80]` subtraction) is modelled explicitly by a
panic branch for `size < 80`.
-/

namespace BlkReader

/-! ## Association-list maps

The source uses `BTreeMap` for both `nodes` and `orphans`.  The operations
the source performs are keyed insert (which replaces an existing entry),
keyed removal, membership and length; iteration order is never observed by
the assembler, so a functional association list models the map faithfully.
-/

section Maps

variable {I D : Type} [DecidableEq I]

/-- `BTreeMap::insert` for an association list: replace the entry with the
given key, or append a fresh entry. -/
def alInsert (k : I) (v : D) : List (I × D) → List (I × D)
  | [] => [(k, v)]
  | (k', v') :: t => if k' = k then (k, v) :: t else (k', v') :: alInsert k v t

/-- `BTreeMap::remove` for an association list: return the removed value (if
any) together with the remaining entries. -/
def alRemove (k : I) : List (I × D) → Option D × List (I × D)
  | [] => (none, [])
  | (k', v) :: t =>
    if k' = k then (some v, t)
    else
      let r := alRemove k t
      (r.1, (k', v) :: r.2)

/-- Key-set insert for the `nodes` map (only the key set of `nodes` is
tracked; the mapped values are the shared tree nodes). -/
def nodesInsert (k : I) (l : List I) : List I :=
  if k ∈ l then l else l ++ [k]

/-- Removing a list of keys one by one, as the pruning loop in
`Chain::pop_head` does with `self.nodes.remove(&node_id)`. -/
def removeIds (l : List I) (ids : List I) : List I :=
  ids.foldl (fun acc i => acc.erase i) l

theorem alRemove_fst_some_length {k : I} {l : List (I × D)} {v : D}
    (h : (alRemove k l).1 = some v) : (alRemove k l).2.length + 1 = l.length := by
  induction l with
  | nil => simp [alRemove] at h
  | cons p t ih =>
    by_cases hk : p.1 = k
    · simp [alRemove, hk]
    · simp only [alRemove, hk, if_false] at h ⊢
      simp [ih h]

end Maps

/-! ## The forest (`Node` in `src/chain.rs`)

`Node<Data>` owns a block, a `prev` back reference and a `next` list of
children (`NextNode::Single` / `NextNode::Multiple`; `add_next` appends, so
the child list is in insertion order).  The `prev` pointers and the
single/multiple distinction are representation details: here a node is its
block together with its list of children, and the `prev` chain is implicit
in the tree.  `Option<Data>`-typed `block` in the source is only the Rust
move-out idiom of `pop_head` (`block.take()`), so `block` is stored
directly. -/

inductive Node (D : Type) where
  | node (block : D) (next : List (Node D))

namespace Node

variable {D : Type}

/-- The block owned by a node. -/
def block : Node D → D
  | .node b _ => b

/-- The children of a node, in insertion order (`add_next` appends). -/
def next : Node D → List (Node D)
  | .node _ cs => cs

end Node

mutual

/-- `Node::depth`: number of nodes on the longest downward path from the
node, inclusive (a leaf has depth 1).  The source distinguishes a single
child (`1 + depth(child)`) from several (`1 + max over children, starting
from 0`); both are `1 +` the maximum child depth. -/
def Node.depth {D : Type} : Node D → Nat
  | .node _ cs => 1 + depthList cs

/-- Maximum depth over a list of children (0 for no children). -/
def depthList {D : Type} : List (Node D) → Nat
  | [] => 0
  | c :: cs => Nat.max (Node.depth c) (depthList cs)

end

mutual

/-- Ids of every node of a subtree, as collected by `Node::extract_right`
and read off with `get_block_id` in the pruning loop of `pop_head`.  The
source's traversal order differs between the single- and multiple-child
cases, but the ids are only ever removed from a map, so only the collected
set matters. -/
def subtreeIds {I D : Type} (getId : D → I) : Node D → List I
  | .node b cs => getId b :: subtreeIdsList getId cs

/-- Ids of every node of a list of subtrees. -/
def subtreeIdsList {I D : Type} (getId : D → I) : List (Node D) → List I
  | [] => []
  | c :: cs => subtreeIds getId c ++ subtreeIdsList getId cs

end

/-- The selection loop of `Node::longest_right` over a child list: running
maximum depth (strict improvement only, starting from 0) with the index of
the current best child.  `i` is the index of the first child of `cs` in the
enclosing list. -/
def longestAux {D : Type} : List (Node D) → Nat → Nat → Option Nat → Option Nat
  | [], _, _, best => best
  | c :: rest, i, maxDepth, best =>
    if Node.depth c > maxDepth then longestAux rest (i + 1) (Node.depth c) (some i)
    else longestAux rest (i + 1) maxDepth best

/-- Index of the child chosen by `Node::longest_right`: the first child of
maximal depth (`none` for a childless node, where `longest_right` returns
the node itself).  For a `Single` child the source returns it directly,
which coincides with index 0. -/
def longestIdx {D : Type} (cs : List (Node D)) : Option Nat :=
  longestAux cs 0 0 none

mutual

/-- Attaching a block under the node carrying the parent id, mirroring the
`Some(parent_node)` branch of `Chain::insert`: the parent node is obtained
from the `nodes` map, which (for the states the assembler constructs)
points to the unique tree node with that id; here it is located as the
first pre-order occurrence.  Returns `none` when no node carries the id. -/
def insertUnder {I D : Type} [DecidableEq I] (getId : D → I) (p : I) (b : D) :
    Node D → Option (Node D)
  | .node x cs =>
    if getId x = p then some (.node x (cs ++ [.node b []]))
    else
      match insertUnderList getId p b cs with
      | some cs' => some (.node x cs')
      | none => none

/-- `insertUnder` over a list of sibling subtrees (first match wins). -/
def insertUnderList {I D : Type} [DecidableEq I] (getId : D → I) (p : I) (b : D) :
    List (Node D) → Option (List (Node D))
  | [] => none
  | c :: cs =>
    match insertUnder getId p b c with
    | some c' => some (c' :: cs)
    | none =>
      match insertUnderList getId p b cs with
      | some cs' => some (c :: cs')
      | none => none

end

/-! ## The chain assembler (`Chain` in `src/chain.rs`) -/

/-- `Chain<I, D>`: the forest.  `head` is the root node (the next candidate
to emit); `nodes` is the key set of the `BTreeMap<I, Rc<RefCell<Node>>>`
(its values are the shared tree nodes); `orphans` maps a missing parent id
to the block waiting on it. -/
structure Chain (I D : Type) where
  head : Option (Node D)
  nodes : List I
  orphans : List (I × D)
  genesis_identifier : I

namespace Chain

variable {I D : Type} [DecidableEq I]

/-- `Chain::new`. -/
def new (genesis_identifier : I) : Chain I D :=
  { head := none, nodes := [], orphans := [], genesis_identifier := genesis_identifier }

/-- `Chain::longest_chain_depth`: depth of `head`, 0 if the forest is
empty. -/
def longest_chain_depth (s : Chain I D) : Nat :=
  match s.head with
  | some head => head.depth
  | none => 0

/-- `Chain::insert`.  Three cases, in source order: the genesis case
(empty head and the parent id is the genesis sentinel) returns at once; a
missing parent queues the block in `orphans` under the missing parent's id
and returns; otherwise the block is attached under its parent and
registered in `nodes`, after which a queued orphan waiting on the new
block's id (if any) is removed and recursively re-inserted. -/
def insert (getId getPrev : D → I) (s : Chain I D) (block : D) : Chain I D :=
  let block_hash := getId block
  let prev_hash := getPrev block
  if s.head.isNone ∧ prev_hash = s.genesis_identifier then
    { s with
      nodes := nodesInsert block_hash s.nodes
      head := some (Node.node block []) }
  else if prev_hash ∈ s.nodes then
    let s1 : Chain I D :=
      { s with
        head := s.head.map (fun t => (insertUnder getId prev_hash block t).getD t)
        nodes := nodesInsert block_hash s.nodes }
    match h : (alRemove block_hash s1.orphans).1 with
    | some orphan => insert getId getPrev { s1 with orphans := (alRemove block_hash s1.orphans).2 } orphan
    | none => s1
  else
    { s with orphans := alInsert prev_hash block s.orphans }
termination_by s.orphans.length
decreasing_by
  exact Nat.lt_of_lt_of_le (Nat.lt_succ_self _) (Nat.le_of_eq (alRemove_fst_some_length h))

/-- `Chain::insert` with an explicit recursion budget: `insertFuel fuel`
performs at most `fuel` insertion steps (each orphan resolution consumes
one) and returns `none` if the budget is exhausted. -/
def insertFuel (getId getPrev : D → I) : Nat → Chain I D → D → Option (Chain I D)
  | 0, _, _ => none
  | fuel + 1, s, block =>
    let block_hash := getId block
    let prev_hash := getPrev block
    if s.head.isNone ∧ prev_hash = s.genesis_identifier then
      some { s with
        nodes := nodesInsert block_hash s.nodes
        head := some (Node.node block []) }
    else if prev_hash ∈ s.nodes then
      let s1 : Chain I D :=
        { s with
          head := s.head.map (fun t => (insertUnder getId prev_hash block t).getD t)
          nodes := nodesInsert block_hash s.nodes }
      match (alRemove block_hash s1.orphans).1 with
      | some orphan =>
        insertFuel getId getPrev fuel { s1 with orphans := (alRemove block_hash s1.orphans).2 } orphan
      | none => some s1
    else
      some { s with orphans := alInsert prev_hash block s.orphans }

/-- `Chain::pop_head`.  The source takes the chain `[head, c]` produced by
`extract_left(longest_right(head))` (so `c` is the child chosen by
`longest_right`, or `head` itself when childless), removes the head id from
`nodes`, and either clears `head` (no child), or re-roots onto `c`; when
`head` had several children every subtree of a non-chosen child is walked
(`extract_right`) and each of its ids removed from `nodes`.  A `Single`
child is the chosen index 0 with no siblings to prune. -/
def pop_head (getId : D → I) (s : Chain I D) : Option D × Chain I D :=
  match s.head with
  | none => (none, s)
  | some t =>
    let head := t.block
    let head_id := getId head
    let nodes1 := s.nodes.erase head_id
    match longestIdx t.next with
    | none => (some head, { s with head := none, nodes := nodes1 })
    | some k =>
      let chosen := t.next.getD k t
      let pruned := subtreeIdsList getId (t.next.eraseIdx k)
      (some head, { s with head := some chosen, nodes := removeIds nodes1 pruned })

end Chain

/-! ## Depth and child-selection facts used for termination -/

theorem Node.depth_eq {D : Type} (t : Node D) : t.depth = 1 + depthList t.next := by
  cases t; rfl

theorem Node.one_le_depth {D : Type} (t : Node D) : 1 ≤ t.depth := by
  cases t with
  | node b cs => simp [Node.depth]

theorem depth_le_depthList {D : Type} {c : Node D} {cs : List (Node D)} (h : c ∈ cs) :
    c.depth ≤ depthList cs := by
  induction cs with
  | nil => cases h
  | cons c' cs ih =>
    rcases List.mem_cons.mp h with rfl | h'
    · simp [depthList, Nat.le_max_left]
    · exact Nat.le_trans (ih h') (by simp [depthList, Nat.le_max_right])

/-- No child improves on the running maximum: the selection loop keeps its
accumulator. -/
theorem longestAux_of_le {D : Type} {cs : List (Node D)} {m : Nat}
    (h : ∀ c ∈ cs, Node.depth c ≤ m) (i : Nat) (best : Option Nat) :
    longestAux cs i m best = best := by
  induction cs generalizing i with
  | nil => rfl
  | cons c rest ih =>
    have hc : ¬ Node.depth c > m := by
      have := h c (List.mem_cons_self c rest)
      omega
    simp only [longestAux, hc, if_false]
    exact ih (fun c' hc' => h c' (List.mem_cons_of_mem _ hc')) (i + 1)

/-- Some child improves on the running maximum: the selection loop returns
the index of the first child of maximal depth (maximal over the whole list,
strictly greater than every earlier child). -/
theorem longestAux_spec {D : Type} {cs : List (Node D)} {m : Nat}
    (h : ∃ c ∈ cs, m < Node.depth c) (i : Nat) (best : Option Nat) :
    ∃ k, ∃ hk : k < cs.length,
      longestAux cs i m best = some (i + k) ∧
      m < Node.depth cs[k] ∧
      (∀ j (hj : j < cs.length), Node.depth cs[j] ≤ Node.depth cs[k]) ∧
      (∀ j (hj : j < cs.length), j < k → Node.depth cs[j] < Node.depth cs[k]) := by
  induction cs generalizing i m best with
  | nil => simp at h
  | cons c rest ih =>
    by_cases hc : Node.depth c > m
    · simp only [longestAux, hc, if_true]
      by_cases himp : ∃ c' ∈ rest, Node.depth c < Node.depth c'
      · obtain ⟨k', hk', heq, hgt, hmax, hstrict⟩ := ih himp (i + 1) (some i)
        refine ⟨k' + 1, by simpa using Nat.succ_lt_succ hk', ?_, ?_, ?_, ?_⟩
        · rw [heq]; congr 1; omega
        · simpa using Nat.lt_trans hc hgt
        · intro j hj
          match j with
          | 0 => simpa using Nat.le_of_lt hgt
          | j + 1 => simpa using hmax j (by simpa using Nat.lt_of_succ_lt_succ hj)
        · intro j hj hjk
          match j with
          | 0 => simpa using hgt
          | j + 1 =>
            exact hstrict j (by simpa using Nat.lt_of_succ_lt_succ hj) (Nat.lt_of_succ_lt_succ hjk)
      · push_neg at himp
        rw [longestAux_of_le himp (i + 1) (some i)]
        refine ⟨0, by simp, by simp, by simpa using hc, ?_, by omega⟩
        intro j hj
        match j with
        | 0 => simp
        | j + 1 => simpa using himp _ (by simp [List.getElem_mem])
    · have hrest : ∃ c' ∈ rest, m < Node.depth c' := by
        obtain ⟨c', hc', hd⟩ := h
        rcases List.mem_cons.mp hc' with rfl | hmem
        · omega
        · exact ⟨c', hmem, hd⟩
      simp only [longestAux, hc, if_false]
      obtain ⟨k', hk', heq, hgt, hmax, hstrict⟩ := ih hrest (i + 1) best
      refine ⟨k' + 1, by simpa using Nat.succ_lt_succ hk', ?_, ?_, ?_, ?_⟩
      · rw [heq]; congr 1; omega
      · simpa using hgt
      · intro j hj
        match j with
        | 0 =>
          simp only [List.getElem_cons_zero, List.getElem_cons_succ]
          omega
        | j + 1 => simpa using hmax j (by simpa using Nat.lt_of_succ_lt_succ hj)
      · intro j hj hjk
        match j with
        | 0 =>
          simp only [List.getElem_cons_zero, List.getElem_cons_succ]
          omega
        | j + 1 =>
          exact hstrict j (by simpa using Nat.lt_of_succ_lt_succ hj) (Nat.lt_of_succ_lt_succ hjk)

/-- `longest_right` on a node with children selects the first child of
maximal depth. -/
theorem longestIdx_spec {D : Type} {cs : List (Node D)} (h : cs ≠ []) :
    ∃ k, ∃ hk : k < cs.length,
      longestIdx cs = some k ∧
      (∀ j (hj : j < cs.length), Node.depth cs[j] ≤ Node.depth cs[k]) ∧
      (∀ j (hj : j < cs.length), j < k → Node.depth cs[j] < Node.depth cs[k]) := by
  have hex : ∃ c ∈ cs, 0 < Node.depth c := by
    cases cs with
    | nil => exact absurd rfl h
    | cons c rest =>
      exact ⟨c, List.mem_cons_self c rest, Nat.lt_of_lt_of_le Nat.one_pos (Node.one_le_depth c)⟩
  obtain ⟨k, hk, heq, _, hmax, hstrict⟩ := longestAux_spec hex 0 none
  exact ⟨k, hk, by simpa [longestIdx] using heq, hmax, hstrict⟩

theorem longestIdx_nil {D : Type} : longestIdx ([] : List (Node D)) = none := rfl

theorem longestIdx_lt {D : Type} {cs : List (Node D)} {k : Nat}
    (h : longestIdx cs = some k) : k < cs.length := by
  cases cs with
  | nil => simp [longestIdx, longestAux] at h
  | cons c rest =>
    obtain ⟨k0, hk0, heq, _, _⟩ := longestIdx_spec (by simp : c :: rest ≠ [])
    rw [heq] at h
    injection h with h
    omega

/-- Popping a non-empty chain strictly decreases the forest depth: `pop_head`
re-roots onto a child of the old head, whose depth is below the old head's. -/
theorem Chain.pop_head_depth_lt {I D : Type} [DecidableEq I] (getId : D → I)
    {s : Chain I D} (h : 1 ≤ s.longest_chain_depth) :
    (Chain.pop_head getId s).2.longest_chain_depth < s.longest_chain_depth := by
  match hh : s.head with
  | none => simp [Chain.longest_chain_depth, hh] at h
  | some t =>
    match hidx : longestIdx t.next with
    | none =>
      simp [Chain.pop_head, hh, hidx, Chain.longest_chain_depth] at h ⊢
      omega
    | some k =>
      have hk : k < t.next.length := longestIdx_lt hidx
      have hchosen : t.next.getD k t = t.next[k] := List.getD_eq_getElem t.next t hk
      have hmem : t.next[k] ∈ t.next := List.getElem_mem hk
      have hd : Node.depth t.next[k] ≤ depthList t.next := depth_le_depthList hmem
      simp only [Chain.pop_head, hh, hidx, Chain.longest_chain_depth, hchosen]
      rw [Node.depth_eq t]
      omega

/-! ## The reader driver (`BlockReader` in `src/block.rs`)

`BlockReader` holds the emission height counter and the chain.  The source
is specialised to `LazyBlock` keyed by `BlockHash`; the drain logic only
uses the chain interface, so it is stated over the chain's generic
identifier and block types, as `chain.rs` provides them.  Callback
invocations are modelled by returning the list of `(block, height)` pairs
passed to `block_cb`, in invocation order. -/

structure BlockReaderOptions where
  max_blocks : Option Nat
  max_orphans : Option Nat
  max_blk_files : Option Nat
  stop_flag : Bool

/-- `BlockReaderOptions::default()`. -/
def BlockReaderOptions.default : BlockReaderOptions :=
  { max_blocks := some 1000, max_orphans := some 10000, max_blk_files := none,
    stop_flag := false }

structure BlockReader (I D : Type) where
  height : Nat
  chain : Chain I D

namespace BlockReader

variable {I D : Type} [DecidableEq I]

/-- `BlockReader::new` with a given genesis sentinel (the source uses the
all-zero block hash). -/
def init (g : I) : BlockReader I D :=
  { height := 0, chain := Chain.new g }

/-- `BlockReader::max_height_reached`. -/
def max_height_reached (opts : BlockReaderOptions) (st : BlockReader I D) : Bool :=
  match opts.max_blocks with
  | some max_blocks => decide (max_blocks ≤ st.height)
  | none => false

/-- `BlockReader::max_orphans_reached`. -/
def max_orphans_reached (opts : BlockReaderOptions) (st : BlockReader I D) : Bool :=
  match opts.max_orphans with
  | some max_orphans => decide (max_orphans ≤ st.chain.orphans.length)
  | none => false

/-- The `while self.chain.longest_chain_depth() >= 10` loop of
`BlockReader::insert`: pop the head, dispatch it to `block_cb` at the
current height (`push_block` passes the height and then increments it),
and stop early once `max_height_reached`.  Returns the final state and the
`(block, height)` pairs dispatched. -/
def drain (getId : D → I) (opts : BlockReaderOptions) (st : BlockReader I D) :
    BlockReader I D × List (D × Nat) :=
  if h : 10 ≤ st.chain.longest_chain_depth then
    let r := Chain.pop_head getId st.chain
    match r.1 with
    | some block =>
      let height := st.height
      let st1 : BlockReader I D := { height := st.height + 1, chain := r.2 }
      if max_height_reached opts st1 then (st1, [(block, height)])
      else
        let (st2, es) := drain getId opts st1
        (st2, (block, height) :: es)
    | none => ({ st with chain := r.2 }, [])
  else (st, [])
termination_by st.chain.longest_chain_depth
decreasing_by
  exact Chain.pop_head_depth_lt getId (Nat.le_trans (by omega) h)

/-- `BlockReader::insert`: insert into the chain, then drain while the
confirmation depth (10) is reached. -/
def insert (getId getPrev : D → I) (opts : BlockReaderOptions)
    (st : BlockReader I D) (block : D) : BlockReader I D × List (D × Nat) :=
  drain getId opts { st with chain := Chain.insert getId getPrev st.chain block }

/-- Repeated driver-level insertion: feed a sequence of blocks through
`BlockReader::insert`, concatenating the `block_cb` dispatches. -/
def runFrom (getId getPrev : D → I) (opts : BlockReaderOptions) :
    BlockReader I D → List D → BlockReader I D × List (D × Nat)
  | st, [] => (st, [])
  | st, b :: bs =>
    let r := insert getId getPrev opts st b
    let r2 := runFrom getId getPrev opts r.1 bs
    (r2.1, r.2 ++ r2.2)

end BlockReader

/-! ## Byte-level decoding (`BlockReader::read_blocs` in `src/block.rs`)

A file is a list of bytes (`Nat` values; all byte-producing definitions
yield values below 256).  Sequential `BufReader` consumption is modelled by
the remaining byte list, together with the source's separate `offset`
counter (the two advance in lock step, by `4 + 4 + size` per record).  The
80-byte header is kept as its raw bytes: the parsed fields the driver uses
are `prev_blockhash` (bytes 4..36) and `time` (bytes 68..72, little
endian), and the block id is the double-SHA256 of those same 80 bytes,
modelled by the external parameter `hashFn`. -/

/-- `Magic::BITCOIN`, the 4-byte mainnet network magic. -/
def MAGIC : List Nat := [0xf9, 0xbe, 0xb4, 0xd9]

/-- Little-endian 4-byte encoding of a `u32`. -/
def toLE4 (n : Nat) : List Nat :=
  [n % 256, n / 256 % 256, n / 65536 % 256, n / 16777216 % 256]

/-- Little-endian decoding of 4 bytes (`u32::consensus_decode`). -/
def fromLE4 (bs : List Nat) : Nat :=
  match bs with
  | [b0, b1, b2, b3] => b0 + 256 * b1 + 65536 * b2 + 16777216 * b3
  | _ => 0

/-- `read_exact` on the remaining byte list: exactly `n` bytes and the rest,
or `none` on a short read. -/
def takeExact {α : Type} : Nat → List α → Option (List α × List α)
  | 0, l => some ([], l)
  | _ + 1, [] => none
  | n + 1, a :: l =>
    match takeExact n l with
    | some (xs, rest) => some (a :: xs, rest)
    | none => none

theorem takeExact_some {α : Type} {n : Nat} {l xs rest : List α}
    (h : takeExact n l = some (xs, rest)) : xs.length = n ∧ l = xs ++ rest := by
  induction n generalizing l xs rest with
  | zero =>
    simp only [takeExact, Option.some.injEq, Prod.mk.injEq] at h
    simp [← h.1, ← h.2]
  | succ n ih =>
    match l with
    | [] => simp [takeExact] at h
    | a :: l' =>
      simp only [takeExact] at h
      match ht : takeExact n l' with
      | some (xs', rest') =>
        rw [ht] at h
        simp only [Option.some.injEq, Prod.mk.injEq] at h
        obtain ⟨h1, h2⟩ := ih ht
        simp [← h.1, ← h.2, h1, h2]
      | none => rw [ht] at h; simp at h

theorem takeExact_some_length {α : Type} {n : Nat} {l : List α} {p : List α × List α}
    (h : takeExact n l = some p) : p.2.length + n = l.length := by
  obtain ⟨h1, h2⟩ := @takeExact_some α n l p.1 p.2 (by simpa using h)
  simp [h2, h1]
  omega

theorem takeExact_append {α : Type} {xs : List α} (rest : List α) {n : Nat}
    (h : xs.length = n) : takeExact n (xs ++ rest) = some (xs, rest) := by
  induction xs generalizing n with
  | nil => simp [← h, takeExact]
  | cons a l ih =>
    subst h
    simp [takeExact, ih rfl]

/-- Parse of the numeric index from the file name: the source slices
`file_path[len-9 .. len-4]` (panicking when the path is shorter than 9
bytes) and `parse::<u32>().unwrap()`s the digits.  `none` stands for either
panic. -/
def digitVal (c : Char) : Option Nat :=
  if '0' ≤ c ∧ c ≤ '9' then some (c.toNat - '0'.toNat) else none

def parseDigits (cs : List Char) : Option Nat :=
  cs.foldl
    (fun acc c =>
      match acc, digitVal c with
      | some n, some d => some (n * 10 + d)
      | _, _ => none)
    (some 0)

def parseBlkIndex (path : String) : Option Nat :=
  let cs := path.toList
  if cs.length < 9 then none
  else parseDigits ((cs.drop (cs.length - 9)).take 5)

/-- `header.time`: bytes 68..72 of the 80-byte header, little endian. -/
def headerTime (h : List Nat) : Nat := fromLE4 ((h.drop 68).take 4)

/-- `LazyBlock`: parsed-header record plus the raw tx blob and its locator.
The header is kept as its 80 raw bytes. -/
structure LazyBlock where
  blk_index : Nat
  blk_path : String
  offset : Nat
  header : List Nat
  data : List Nat
deriving DecidableEq

/-- `GetBlockIds::get_block_id` for `LazyBlock`: `header.block_hash()`,
the double-SHA256 of the 80 header bytes, supplied as `hashFn`. -/
def LazyBlock.get_block_id (hashFn : List Nat → List Nat) (b : LazyBlock) : List Nat :=
  hashFn b.header

/-- `GetBlockIds::get_block_prev_id` for `LazyBlock`:
`header.prev_blockhash`, bytes 4..36 of the header. -/
def LazyBlock.get_block_prev_id (b : LazyBlock) : List Nat :=
  (b.header.drop 4).take 32

/-- `BlockHash::all_zeros()`, the genesis sentinel of `BlockReader::new`. -/
def allZeros : List Nat := List.replicate 32 0

/-- Outcome of a decoder run.  `ok more` is the source's `Ok(more)`;
`corrupt path offset` is the magic-mismatch branch, which reports the file
path and record offset (via its diagnostic print) and returns an error;
`panicked` is any of the `unwrap()` calls firing (short read inside a
record, or an unparsable file name). -/
inductive LoopResult where
  | ok (more : Bool)
  | corrupt (path : String) (offset : Nat)
  | panicked
deriving DecidableEq

/-- Result of `read_blocs` / `read`: outcome, final reader state, the
`block_cb` dispatches `(block, height)` and the `file_cb` dispatches
`(path, height, time)`, each in invocation order. -/
structure ReadOut where
  result : LoopResult
  state : BlockReader (List Nat) LazyBlock
  blockCbs : List (LazyBlock × Nat)
  fileCbs : List (String × Nat × Nat)

/-- Outcome of the framing reads one loop iteration performs before the
insertion. -/
inductive DecodeResult where
  | short
  | badMagic
  | record (size : Nat) (header data rem : List Nat)
deriving DecidableEq

/-- The framing reads at the start of each `read_blocs` loop iteration:
decode the 4 magic bytes (`unwrap`: a short read is `short`, a panic),
compare against `MAGIC` (`badMagic`: the mismatch branch), decode the LE
`size`, decode the 80-byte header, and read the `size - 80` blob bytes
(`vec![0; size - 80]` underflows — panics — when `size < 80`).  Returns the
decoded record together with the bytes remaining after it. -/
def decodeRecord (rem : List Nat) : DecodeResult :=
  match takeExact 4 rem with
  | none => .short
  | some (magic, rem1) =>
    if magic ≠ MAGIC then .badMagic
    else
      match takeExact 4 rem1 with
      | none => .short
      | some (sizeBytes, rem2) =>
        let size := fromLE4 sizeBytes
        match takeExact 80 rem2 with
        | none => .short
        | some (header, rem3) =>
          if size < 80 then .short
          else
            match takeExact (size - 80) rem3 with
            | none => .short
            | some (data, rem4) => .record size header data rem4

theorem decodeRecord_record_length {rem : List Nat} {size : Nat} {header data rem4 : List Nat}
    (h : decodeRecord rem = .record size header data rem4) : rem4.length < rem.length := by
  unfold decodeRecord at h
  match h4 : takeExact 4 rem with
  | none => rw [h4] at h; exact absurd h (by simp)
  | some (magic, rem1) =>
    rw [h4] at h
    have l4 := takeExact_some_length h4
    by_cases hm : magic ≠ MAGIC
    · simp [hm] at h
    · simp only [hm, if_false, ite_false] at h
      match h5 : takeExact 4 rem1 with
      | none => rw [h5] at h; exact absurd h (by simp)
      | some (sizeBytes, rem2) =>
        rw [h5] at h
        have l5 := takeExact_some_length h5
        match h6 : takeExact 80 rem2 with
        | none => simp [h6] at h
        | some (hdr, rem3) =>
          simp only [h6] at h
          have l6 := takeExact_some_length h6
          by_cases hsz : fromLE4 sizeBytes < 80
          · simp [hsz] at h
          · simp only [hsz, if_false, ite_false] at h
            match h7 : takeExact (fromLE4 sizeBytes - 80) rem3 with
            | none => simp [h7] at h
            | some (data', rem4') =>
              simp only [h7, DecodeResult.record.injEq] at h
              have l7 := takeExact_some_length h7
              obtain ⟨_, _, _, rfl⟩ := h
              simp only at l4 l5 l6 l7
              omega

/-- The record loop of `BlockReader::read_blocs`.  Per iteration: perform
the framing reads (`decodeRecord`; a short read panics, a magic mismatch
reports the file path and record offset and returns the error), capture
`time` and the pre-insertion `height`, insert the record, advance `offset`
by `4 + 4 + size`, then check in order: stop flag, block cap, orphan cap
(each returns `Ok(false)`), and end of file (`Ok(true)`, invoking
`file_cb(path, height, time)`). -/
def read_blocs_loop (hashFn : List Nat → List Nat) (opts : BlockReaderOptions)
    (path : String) (blk_index fileSize : Nat) (st : BlockReader (List Nat) LazyBlock)
    (rem : List Nat) (offset : Nat) : ReadOut :=
  match hrec : decodeRecord rem with
  | .short => ⟨.panicked, st, [], []⟩
  | .badMagic => ⟨.corrupt path offset, st, [], []⟩
  | .record size header data rem4 =>
    let time := headerTime header
    let height := st.height
    let r := BlockReader.insert (LazyBlock.get_block_id hashFn)
      LazyBlock.get_block_prev_id opts st
      ⟨blk_index, path, offset, header, data⟩
    let offset1 := offset + 4 + 4 + size
    if opts.stop_flag then ⟨.ok false, r.1, r.2, []⟩
    else if BlockReader.max_height_reached opts r.1 then ⟨.ok false, r.1, r.2, []⟩
    else if BlockReader.max_orphans_reached opts r.1 then ⟨.ok false, r.1, r.2, []⟩
    else if fileSize ≤ offset1 then ⟨.ok true, r.1, r.2, [(path, height, time)]⟩
    else
      let r2 := read_blocs_loop hashFn opts path blk_index fileSize r.1 rem4 offset1
      ⟨r2.result, r2.state, r.2 ++ r2.blockCbs, r2.fileCbs⟩
termination_by rem.length
decreasing_by
  exact decodeRecord_record_length hrec

/-- `BlockReader::read_blocs`: open the file (its bytes are given), read its
size, parse the `blkNNNNN` index from the path (`unwrap`), and run the
record loop from offset 0. -/
def read_blocs (hashFn : List Nat → List Nat) (opts : BlockReaderOptions)
    (path : String) (bytes : List Nat) (st : BlockReader (List Nat) LazyBlock) : ReadOut :=
  match parseBlkIndex path with
  | none => ⟨.panicked, st, [], []⟩
  | some blk_index => read_blocs_loop hashFn opts path blk_index bytes.length st bytes 0

/-- `BlockReader::read` over the (already listed, filtered and sorted)
directory entries: before each file check the block cap, run `read_blocs`,
stop on `Ok(false)` (still a success) and propagate errors and panics. -/
def read (hashFn : List Nat → List Nat) (opts : BlockReaderOptions) :
    List (String × List Nat) → BlockReader (List Nat) LazyBlock → ReadOut
  | [], st => ⟨.ok true, st, [], []⟩
  | (path, bytes) :: rest, st =>
    if BlockReader.max_height_reached opts st then ⟨.ok true, st, [], []⟩
    else
      let r := read_blocs hashFn opts path bytes st
      match r.result with
      | .ok true =>
        let r2 := read hashFn opts rest r.state
        ⟨r2.result, r2.state, r.blockCbs ++ r2.blockCbs, r.fileCbs ++ r2.fileCbs⟩
      | _ => r

/-! ## Record encodings (statement vocabulary for the decoder theorems) -/

/-- One on-disk record for a (header bytes, tx blob bytes) pair:
`magic ∥ size(LE u32) ∥ header ∥ blob` with `size = 80 + |blob|`. -/
def encodeRecord (r : List Nat × List Nat) : List Nat :=
  MAGIC ++ toLE4 (80 + r.2.length) ++ r.1 ++ r.2

/-- Concatenation of records, as a `blk` file stores them. -/
def encodeRecords : List (List Nat × List Nat) → List Nat
  | [] => []
  | r :: rs => encodeRecord r ++ encodeRecords rs

/-- Well-formed record: an 80-byte header, and a size field below `2^32`. -/
def wfRecord (r : List Nat × List Nat) : Prop :=
  r.1.length = 80 ∧ 80 + r.2.length < 4294967296

/-- Driver-level insertion of a list of records with their running offsets:
the effect of the record loop on the reader state and `block_cb` stream,
used to state what `read_blocs` does to a well-formed file. -/
def processRecords (hashFn : List Nat → List Nat) (opts : BlockReaderOptions)
    (path : String) (blk_index : Nat) :
    List (List Nat × List Nat) → Nat → BlockReader (List Nat) LazyBlock →
    BlockReader (List Nat) LazyBlock × List (LazyBlock × Nat)
  | [], _, st => (st, [])
  | (h, d) :: rs, offset, st =>
    let r := BlockReader.insert (LazyBlock.get_block_id hashFn)
      LazyBlock.get_block_prev_id opts st ⟨blk_index, path, offset, h, d⟩
    let r2 := processRecords hashFn opts path blk_index rs (offset + 4 + 4 + (80 + d.length)) r.1
    (r2.1, r.2 ++ r2.2)

/-- All records of a file well-formed. -/
def wfRecords (rs : List (List Nat × List Nat)) : Prop := ∀ r ∈ rs, wfRecord r

/-- The entry-list part of the `orphans` invariant: no two entries share a
missing-parent key, and every stored block's `prev_id` equals its key. -/
def OrphansWfL {I D : Type} (getPrev : D → I) (l : List (I × D)) : Prop :=
  (l.map Prod.fst).Nodup ∧ ∀ p ∈ l, getPrev p.2 = p.1

/-- The `orphans` map invariant stated by the specification, restricted to
the parts the code maintains: no two entries share a missing-parent key,
and every stored block's `prev_id` equals its key. -/
def OrphansWf {I D : Type} (getPrev : D → I) (s : Chain I D) : Prop :=
  OrphansWfL getPrev s.orphans

/-! ## Concrete instances used by the closed theorems -/

instance wfRecordDec (r : List Nat × List Nat) : Decidable (wfRecord r) := by
  unfold wfRecord
  infer_instance

instance wfRecordsDec (rs : List (List Nat × List Nat)) : Decidable (wfRecords rs) := by
  unfold wfRecords
  infer_instance

/-- File name used by the concrete decoder runs (`blk` index 0). -/
def blkPath : String := "blk00000.dat"

/-- Options with no caps and the stop flag clear. -/
def opts0 : BlockReaderOptions :=
  { max_blocks := none, max_orphans := none, max_blk_files := none, stop_flag := false }

/-- Default options with the stop flag raised before the run (scenario S5). -/
def optsStop : BlockReaderOptions :=
  { BlockReaderOptions.default with stop_flag := true }

/-- Stand-in for the double-SHA256 header hash in concrete runs: reads the
32 bytes at offset 36 of the header (the merkle-root field), so test
headers can dictate their own ids. -/
def testHash (h : List Nat) : List Nat := (h.drop 36).take 32

/-- 32-byte id whose first byte is `k` (so `idBytes 0 = allZeros`). -/
def idBytes (k : Nat) : List Nat := k :: List.replicate 31 0

/-- An 80-byte header for test block `k`: version 0, previous id
`idBytes (k-1)`, merkle root `idBytes k` (which `testHash` reads back as
the block id), time `k`, bits 0, nonce 0. -/
def testHeader (k : Nat) : List Nat :=
  List.replicate 4 0 ++ idBytes (k - 1) ++ idBytes k ++ [k % 256, 0, 0, 0] ++
    List.replicate 4 0 ++ List.replicate 4 0

/-- A single dataless record. -/
def rec1 : List (List Nat × List Nat) := [(testHeader 1, [])]

/-- Ten dataless records forming the linear test chain 1..10. -/
def rs10 : List (List Nat × List Nat) :=
  [(testHeader 1, []), (testHeader 2, []), (testHeader 3, []), (testHeader 4, []),
   (testHeader 5, []), (testHeader 6, []), (testHeader 7, []), (testHeader 8, []),
   (testHeader 9, []), (testHeader 10, [])]

/-- The late-genesis scenario: block `2` (parent `1`) arrives first and is
queued as an orphan; block `1` (parent = genesis sentinel `0`) then arrives
and takes the genesis branch of `Chain::insert`. -/
def genesisLate : Chain Nat (Nat × Nat) :=
  Chain.insert Prod.fst Prod.snd
    (Chain.insert Prod.fst Prod.snd (Chain.new 0) (2, 1)) (1, 0)

/-- A small forest literal: head `1` with two children — the deeper branch
`2 → 3` and the shallower sibling `20`. -/
def exFork : Chain Nat (Nat × Nat) :=
  { head := some (Node.node (1, 0) [Node.node (2, 1) [Node.node (3, 2) []], Node.node (20, 1) []])
    nodes := [1, 2, 3, 20]
    orphans := []
    genesis_identifier := 0 }

/-- The root node of `exFork`. -/
def exForkRoot : Node (Nat × Nat) :=
  Node.node (1, 0) [Node.node (2, 1) [Node.node (3, 2) []], Node.node (20, 1) []]

/-- A one-node chain (block id 1 attached to genesis 0) with one queued
orphan waiting on the missing parent 9. -/
def exOne : Chain Nat (Nat × Nat) :=
  { head := some (Node.node (1, 0) [])
    nodes := [1]
    orphans := [(9, (10, 9))]
    genesis_identifier := 0 }

/-! ## Association-list and key-set lemmas -/

section MapLemmas

variable {I D : Type} [DecidableEq I]

theorem alInsert_keys_mem (k : I) (v : D) (l : List (I × D)) (x : I) :
    x ∈ (alInsert k v l).map Prod.fst ↔ x = k ∨ x ∈ l.map Prod.fst := by
  induction l with
  | nil => simp [alInsert]
  | cons p t ih =>
    by_cases hk : p.1 = k
    · simp only [alInsert, hk, if_true, ite_true, List.map_cons, List.mem_cons, hk]
      tauto
    · simp only [alInsert, hk, if_false, ite_false, List.map_cons, List.mem_cons, ih]
      tauto

theorem alInsert_keys_nodup (k : I) (v : D) {l : List (I × D)}
    (h : (l.map Prod.fst).Nodup) : ((alInsert k v l).map Prod.fst).Nodup := by
  induction l with
  | nil => simp [alInsert]
  | cons p t ih =>
    simp only [List.map_cons, List.nodup_cons] at h
    by_cases hk : p.1 = k
    · simp only [alInsert, hk, if_true, ite_true, List.map_cons, List.nodup_cons]
      exact ⟨hk ▸ h.1, h.2⟩
    · simp only [alInsert, hk, if_false, ite_false, List.map_cons, List.nodup_cons]
      refine ⟨?_, ih h.2⟩
      rw [alInsert_keys_mem]
      push_neg
      exact ⟨hk, h.1⟩

theorem alInsert_mem {k : I} {v : D} {l : List (I × D)} {p : I × D}
    (h : p ∈ alInsert k v l) : p = (k, v) ∨ p ∈ l := by
  induction l with
  | nil => simpa [alInsert] using h
  | cons q t ih =>
    by_cases hk : q.1 = k
    · simp only [alInsert, hk, if_true, ite_true, List.mem_cons] at h
      rcases h with h | h
      · exact Or.inl h
      · exact Or.inr (List.mem_cons_of_mem _ h)
    · simp only [alInsert, hk, if_false, ite_false, List.mem_cons] at h
      rcases h with h | h
      · exact Or.inr (by simp [h])
      · rcases ih h with h' | h'
        · exact Or.inl h'
        · exact Or.inr (List.mem_cons_of_mem _ h')

theorem alRemove_mem {k : I} {l : List (I × D)} {p : I × D}
    (h : p ∈ (alRemove k l).2) : p ∈ l := by
  induction l with
  | nil => simpa [alRemove] using h
  | cons q t ih =>
    by_cases hk : q.1 = k
    · simp only [alRemove, hk, if_true, ite_true] at h
      exact List.mem_cons_of_mem _ h
    · simp only [alRemove, hk, if_false, ite_false, List.mem_cons] at h
      rcases h with h | h
      · simp [h]
      · exact List.mem_cons_of_mem _ (ih h)

theorem alRemove_fst_none {k : I} {l : List (I × D)} :
    (alRemove k l).1 = none ↔ k ∉ l.map Prod.fst := by
  induction l with
  | nil => simp [alRemove]
  | cons q t ih =>
    by_cases hk : q.1 = k
    · simp [alRemove, hk]
    · simp only [alRemove, hk, if_false, ite_false, List.map_cons, List.mem_cons, ih]
      have : ¬ k = q.1 := fun hh => hk hh.symm
      tauto

theorem alRemove_fst_some_mem {k : I} {l : List (I × D)} {v : D}
    (h : (alRemove k l).1 = some v) : (k, v) ∈ l := by
  induction l with
  | nil => simp [alRemove] at h
  | cons q t ih =>
    by_cases hk : q.1 = k
    · simp only [alRemove, hk, if_true, ite_true, Option.some.injEq] at h
      have hq : q = (k, v) := Prod.ext hk h
      simp [← hq]
    · simp only [alRemove, hk, if_false, ite_false] at h
      exact List.mem_cons_of_mem _ (ih h)

theorem alRemove_keys_sub {k x : I} {l : List (I × D)}
    (h : x ∈ (alRemove k l).2.map Prod.fst) : x ∈ l.map Prod.fst := by
  simp only [List.mem_map] at h ⊢
  obtain ⟨p, hp, rfl⟩ := h
  exact ⟨p, alRemove_mem hp, rfl⟩

theorem alRemove_keys_nodup {k : I} {l : List (I × D)}
    (h : (l.map Prod.fst).Nodup) : ((alRemove k l).2.map Prod.fst).Nodup := by
  induction l with
  | nil => simp [alRemove]
  | cons q t ih =>
    simp only [List.map_cons, List.nodup_cons] at h
    by_cases hk : q.1 = k
    · simpa [alRemove, hk] using h.2
    · simp only [alRemove, hk, if_false, ite_false, List.map_cons, List.nodup_cons]
      exact ⟨fun hc => h.1 (alRemove_keys_sub hc), ih h.2⟩

theorem alRemove_not_mem_of_nodup {k : I} {l : List (I × D)}
    (h : (l.map Prod.fst).Nodup) : k ∉ (alRemove k l).2.map Prod.fst := by
  induction l with
  | nil => simp [alRemove]
  | cons q t ih =>
    simp only [List.map_cons, List.nodup_cons] at h
    by_cases hk : q.1 = k
    · subst hk
      simpa [alRemove] using h.1
    · simp only [alRemove, hk, if_false, ite_false, List.map_cons, List.mem_cons]
      push_neg
      exact ⟨fun hc => hk hc.symm, ih h.2⟩

theorem alInsert_length (k : I) (v : D) (l : List (I × D)) :
    (alInsert k v l).length ≤ l.length + 1 := by
  induction l with
  | nil => simp [alInsert]
  | cons q t ih =>
    by_cases hk : q.1 = k
    · simp [alInsert, hk]
    · simp only [alInsert, hk, if_false, ite_false, List.length_cons]
      omega

theorem nodesInsert_mem (k : I) (l : List I) (x : I) :
    x ∈ nodesInsert k l ↔ x = k ∨ x ∈ l := by
  unfold nodesInsert
  by_cases hk : k ∈ l
  · simp only [hk, if_true, ite_true]
    constructor
    · exact Or.inr
    · rintro (rfl | h)
      · exact hk
      · exact h
  · simp [hk, or_comm]

theorem removeIds_mem {x : I} : ∀ (ids l : List I), l.Nodup →
    (x ∈ removeIds l ids ↔ x ∈ l ∧ x ∉ ids) := by
  intro ids
  induction ids with
  | nil => intro l _; simp [removeIds]
  | cons i ids ih =>
    intro l hl
    have step : removeIds l (i :: ids) = removeIds (l.erase i) ids := rfl
    rw [step, ih (l.erase i) (hl.erase i), hl.mem_erase_iff]
    simp only [List.mem_cons]
    tauto

end MapLemmas

/-! ## Subtree-id lemmas -/

theorem mem_subtreeIdsList {I D : Type} (getId : D → I) (x : I) :
    ∀ cs : List (Node D), x ∈ subtreeIdsList getId cs ↔ ∃ c ∈ cs, x ∈ subtreeIds getId c := by
  intro cs
  induction cs with
  | nil => simp [subtreeIdsList]
  | cons c cs ih => simp [subtreeIdsList, ih]

theorem mem_subtreeIdsList_eraseIdx {I D : Type} (getId : D → I) (x : I) :
    ∀ (cs : List (Node D)) (k : Nat), k < cs.length →
      (x ∈ subtreeIdsList getId (cs.eraseIdx k) ↔
        ∃ j, ∃ hj : j < cs.length, j ≠ k ∧ x ∈ subtreeIds getId cs[j]) := by
  intro cs
  induction cs with
  | nil => intro k hk; simp at hk
  | cons c cs ih =>
    intro k hk
    match k with
    | 0 =>
      rw [show ((c :: cs).eraseIdx 0) = cs from rfl, mem_subtreeIdsList]
      constructor
      · rintro ⟨c', hc', hx⟩
        obtain ⟨i, hi, hceq⟩ := List.mem_iff_getElem.mp hc'
        exact ⟨i + 1, by simpa using Nat.succ_lt_succ hi, by omega, by simpa [hceq] using hx⟩
      · rintro ⟨j, hj, hjk, hx⟩
        match j with
        | 0 => exact absurd rfl hjk
        | j + 1 =>
          have hj' : j < cs.length := by simpa using Nat.lt_of_succ_lt_succ hj
          exact ⟨cs[j], List.getElem_mem hj', by simpa using hx⟩
    | k + 1 =>
      have hk' : k < cs.length := by simpa using Nat.lt_of_succ_lt_succ hk
      rw [show ((c :: cs).eraseIdx (k + 1)) = c :: cs.eraseIdx k from rfl]
      simp only [subtreeIdsList, List.mem_append, ih k hk']
      constructor
      · rintro (hx | ⟨j, hj, hjk, hx⟩)
        · exact ⟨0, by simp, by simp, by simpa using hx⟩
        · exact ⟨j + 1, by simpa using Nat.succ_lt_succ hj, by omega, by simpa using hx⟩
      · rintro ⟨j, hj, hjk, hx⟩
        match j with
        | 0 => exact Or.inl (by simpa using hx)
        | j + 1 =>
          exact Or.inr ⟨j, by simpa using Nat.lt_of_succ_lt_succ hj, by omega, by simpa using hx⟩

/-! ## `pop_head` basic facts -/

theorem pop_head_fst_none {I D : Type} [DecidableEq I] (getId : D → I) (s : Chain I D) :
    (Chain.pop_head getId s).1 = none ↔ s.head = none := by
  match hh : s.head with
  | none => simp [Chain.pop_head, hh]
  | some t =>
    cases hidx : longestIdx t.next <;> simp [Chain.pop_head, hh, hidx]

theorem pop_head_orphans {I D : Type} [DecidableEq I] (getId : D → I) (s : Chain I D) :
    (Chain.pop_head getId s).2.orphans = s.orphans := by
  match hh : s.head with
  | none => simp [Chain.pop_head, hh]
  | some t =>
    cases hidx : longestIdx t.next <;> simp [Chain.pop_head, hh, hidx]

/-! ## `Chain.insert` branch equations -/

section InsertBranches

variable {I D : Type} [DecidableEq I] (getId getPrev : D → I)

theorem insert_genesis (s : Chain I D) (b : D)
    (h : s.head.isNone ∧ getPrev b = s.genesis_identifier) :
    Chain.insert getId getPrev s b =
      { s with
        nodes := nodesInsert (getId b) s.nodes
        head := some (Node.node b []) } := by
  rw [Chain.insert]
  simp only [if_pos h]

theorem insert_orphan (s : Chain I D) (b : D)
    (h1 : ¬ (s.head.isNone ∧ getPrev b = s.genesis_identifier))
    (h2 : getPrev b ∉ s.nodes) :
    Chain.insert getId getPrev s b = { s with orphans := alInsert (getPrev b) b s.orphans } := by
  rw [Chain.insert]
  simp only [h1, h2, if_false, ite_false]

theorem insert_attach_none (s : Chain I D) (b : D)
    (h1 : ¬ (s.head.isNone ∧ getPrev b = s.genesis_identifier))
    (h2 : getPrev b ∈ s.nodes)
    (h3 : (alRemove (getId b) s.orphans).1 = none) :
    Chain.insert getId getPrev s b =
      { s with
        head := s.head.map (fun t => (insertUnder getId (getPrev b) b t).getD t)
        nodes := nodesInsert (getId b) s.nodes } := by
  rw [Chain.insert]
  simp only [h1, h2, if_false, ite_false, if_true, ite_true]
  split
  · rename_i orphan heq
    rw [h3] at heq
    exact absurd heq (by simp)
  · rfl

theorem insert_attach_some (s : Chain I D) (b : D) (orphan : D)
    (h1 : ¬ (s.head.isNone ∧ getPrev b = s.genesis_identifier))
    (h2 : getPrev b ∈ s.nodes)
    (h3 : (alRemove (getId b) s.orphans).1 = some orphan) :
    Chain.insert getId getPrev s b =
      Chain.insert getId getPrev
        { s with
          head := s.head.map (fun t => (insertUnder getId (getPrev b) b t).getD t)
          nodes := nodesInsert (getId b) s.nodes
          orphans := (alRemove (getId b) s.orphans).2 } orphan := by
  rw [Chain.insert]
  simp only [h1, h2, if_false, ite_false, if_true, ite_true]
  split
  · rename_i orphan' heq
    rw [h3] at heq
    injection heq with heq
    rw [heq]
  · rename_i heq
    rw [h3] at heq
    exact absurd heq (by simp)

end InsertBranches

/-! ## Orphan-map invariant preservation -/

section OrphanInv

variable {I D : Type} [DecidableEq I] (getId getPrev : D → I)

theorem orphansWfL_alInsert {l : List (I × D)} {k : I} {v : D}
    (h : OrphansWfL getPrev l) (hk : getPrev v = k) :
    OrphansWfL getPrev (alInsert k v l) := by
  refine ⟨alInsert_keys_nodup k v h.1, fun p hp => ?_⟩
  rcases alInsert_mem hp with rfl | hp'
  · simpa using hk
  · exact h.2 p hp'

theorem orphansWfL_alRemove {l : List (I × D)} (k : I)
    (h : OrphansWfL getPrev l) : OrphansWfL getPrev (alRemove k l).2 :=
  ⟨alRemove_keys_nodup h.1, fun p hp => h.2 p (alRemove_mem hp)⟩

theorem orphansWf_insert_aux :
    ∀ (n : Nat) (s : Chain I D) (b : D), s.orphans.length ≤ n → OrphansWf getPrev s →
      OrphansWf getPrev (Chain.insert getId getPrev s b) := by
  intro n
  induction n with
  | zero =>
    intro s b hn hwf
    have horph : s.orphans = [] := List.length_eq_zero.mp (Nat.le_zero.mp hn)
    by_cases hg : s.head.isNone ∧ getPrev b = s.genesis_identifier
    · rw [insert_genesis getId getPrev s b hg]
      exact hwf
    · by_cases hp : getPrev b ∈ s.nodes
      · have halr : (alRemove (getId b) s.orphans).1 = none := by simp [horph, alRemove]
        rw [insert_attach_none getId getPrev s b hg hp halr]
        exact hwf
      · rw [insert_orphan getId getPrev s b hg hp]
        exact orphansWfL_alInsert getPrev hwf rfl
  | succ n ih =>
    intro s b hn hwf
    by_cases hg : s.head.isNone ∧ getPrev b = s.genesis_identifier
    · rw [insert_genesis getId getPrev s b hg]
      exact hwf
    · by_cases hp : getPrev b ∈ s.nodes
      · cases halr : (alRemove (getId b) s.orphans).1 with
        | none =>
          rw [insert_attach_none getId getPrev s b hg hp halr]
          exact hwf
        | some orphan =>
          rw [insert_attach_some getId getPrev s b orphan hg hp halr]
          have hlen := alRemove_fst_some_length halr
          exact ih _ orphan
            (by
              show (alRemove (getId b) s.orphans).2.length ≤ n
              omega)
            (orphansWfL_alRemove getPrev _ hwf)
      · rw [insert_orphan getId getPrev s b hg hp]
        exact orphansWfL_alInsert getPrev hwf rfl

theorem insert_attach_keys_aux :
    ∀ (n : Nat) (s : Chain I D) (b : D), s.orphans.length ≤ n → OrphansWf getPrev s →
      s.head.isSome → getPrev b ∈ s.nodes →
      ((Chain.insert getId getPrev s b).orphans.map Prod.fst ⊆ s.orphans.map Prod.fst ∧
       getId b ∉ (Chain.insert getId getPrev s b).orphans.map Prod.fst) := by
  intro n
  induction n with
  | zero =>
    intro s b hn hwf hsome hp
    obtain ⟨t, ht⟩ := Option.isSome_iff_exists.mp hsome
    have hg : ¬ (s.head.isNone ∧ getPrev b = s.genesis_identifier) := by simp [ht]
    have horph : s.orphans = [] := List.length_eq_zero.mp (Nat.le_zero.mp hn)
    have halr : (alRemove (getId b) s.orphans).1 = none := by simp [horph, alRemove]
    rw [insert_attach_none getId getPrev s b hg hp halr]
    exact ⟨fun x hx => hx, alRemove_fst_none.mp halr⟩
  | succ n ih =>
    intro s b hn hwf hsome hp
    obtain ⟨t, ht⟩ := Option.isSome_iff_exists.mp hsome
    have hg : ¬ (s.head.isNone ∧ getPrev b = s.genesis_identifier) := by simp [ht]
    cases halr : (alRemove (getId b) s.orphans).1 with
    | none =>
      rw [insert_attach_none getId getPrev s b hg hp halr]
      exact ⟨fun x hx => hx, alRemove_fst_none.mp halr⟩
    | some orphan =>
      rw [insert_attach_some getId getPrev s b orphan hg hp halr]
      have hlen := alRemove_fst_some_length halr
      have hport : getPrev orphan = getId b :=
        hwf.2 (getId b, orphan) (alRemove_fst_some_mem halr)
      have ih' := ih
        { s with
          head := s.head.map (fun u => (insertUnder getId (getPrev b) b u).getD u)
          nodes := nodesInsert (getId b) s.nodes
          orphans := (alRemove (getId b) s.orphans).2 } orphan
        (by
          show (alRemove (getId b) s.orphans).2.length ≤ n
          omega)
        (orphansWfL_alRemove getPrev _ hwf)
        (by simp [ht])
        (by rw [hport]; exact (nodesInsert_mem _ _ _).mpr (Or.inl rfl))
      refine ⟨fun x hx => alRemove_keys_sub (ih'.1 hx), fun hx => ?_⟩
      exact alRemove_not_mem_of_nodup hwf.1 (ih'.1 hx)

theorem insertFuel_aux :
    ∀ (n : Nat) (s : Chain I D) (b : D), s.orphans.length ≤ n →
      (Chain.insertFuel getId getPrev (n + 1) s b = some (Chain.insert getId getPrev s b) ∧
       (Chain.insert getId getPrev s b).orphans.length ≤ s.orphans.length + 1) := by
  intro n
  induction n with
  | zero =>
    intro s b hn
    have horph : s.orphans = [] := List.length_eq_zero.mp (Nat.le_zero.mp hn)
    by_cases hg : s.head.isNone ∧ getPrev b = s.genesis_identifier
    · refine ⟨?_, ?_⟩
      · rw [insert_genesis getId getPrev s b hg, Chain.insertFuel]
        simp only [if_pos hg]
      · rw [insert_genesis getId getPrev s b hg]
        show s.orphans.length ≤ s.orphans.length + 1
        omega
    · by_cases hp : getPrev b ∈ s.nodes
      · have halr : (alRemove (getId b) s.orphans).1 = none := by simp [horph, alRemove]
        refine ⟨?_, ?_⟩
        · rw [insert_attach_none getId getPrev s b hg hp halr, Chain.insertFuel]
          simp only [hg, hp, if_false, ite_false, if_true, ite_true, halr]
        · rw [insert_attach_none getId getPrev s b hg hp halr]
          show s.orphans.length ≤ s.orphans.length + 1
          omega
      · refine ⟨?_, ?_⟩
        · rw [insert_orphan getId getPrev s b hg hp, Chain.insertFuel]
          simp only [hg, hp, if_false, ite_false]
        · rw [insert_orphan getId getPrev s b hg hp]
          show (alInsert (getPrev b) b s.orphans).length ≤ s.orphans.length + 1
          exact alInsert_length (getPrev b) b s.orphans
  | succ n ih =>
    intro s b hn
    by_cases hg : s.head.isNone ∧ getPrev b = s.genesis_identifier
    · refine ⟨?_, ?_⟩
      · rw [insert_genesis getId getPrev s b hg, Chain.insertFuel]
        simp only [if_pos hg]
      · rw [insert_genesis getId getPrev s b hg]
        show s.orphans.length ≤ s.orphans.length + 1
        omega
    · by_cases hp : getPrev b ∈ s.nodes
      · cases halr : (alRemove (getId b) s.orphans).1 with
        | none =>
          refine ⟨?_, ?_⟩
          · rw [insert_attach_none getId getPrev s b hg hp halr, Chain.insertFuel]
            simp only [hg, hp, if_false, ite_false, if_true, ite_true, halr]
          · rw [insert_attach_none getId getPrev s b hg hp halr]
            show s.orphans.length ≤ s.orphans.length + 1
            omega
        | some orphan =>
          have hlen := alRemove_fst_some_length halr
          have ih' := ih
            { s with
              head := s.head.map (fun u => (insertUnder getId (getPrev b) b u).getD u)
              nodes := nodesInsert (getId b) s.nodes
              orphans := (alRemove (getId b) s.orphans).2 } orphan
            (by
              show (alRemove (getId b) s.orphans).2.length ≤ n
              omega)
          refine ⟨?_, ?_⟩
          · rw [insert_attach_some getId getPrev s b orphan hg hp halr, Chain.insertFuel]
            simp only [hg, hp, if_false, ite_false, if_true, ite_true, halr]
            exact ih'.1
          · rw [insert_attach_some getId getPrev s b orphan hg hp halr]
            have h2 : (Chain.insert getId getPrev
                { s with
                  head := s.head.map (fun u => (insertUnder getId (getPrev b) b u).getD u)
                  nodes := nodesInsert (getId b) s.nodes
                  orphans := (alRemove (getId b) s.orphans).2 } orphan).orphans.length ≤
                (alRemove (getId b) s.orphans).2.length + 1 := ih'.2
            omega
      · refine ⟨?_, ?_⟩
        · rw [insert_orphan getId getPrev s b hg hp, Chain.insertFuel]
          simp only [hg, hp, if_false, ite_false]
        · rw [insert_orphan getId getPrev s b hg hp]
          show (alInsert (getPrev b) b s.orphans).length ≤ s.orphans.length + 1
          exact alInsert_length (getPrev b) b s.orphans

end OrphanInv

/-! ## Claims C2, C5, C10 -/

/-- Claim C2 (counterexample): the genesis branch of `Chain::insert` returns
before the orphan-resolution step.  Block 2 (parent 1) arrives first and is
queued under missing parent 1; block 1 then arrives via the genesis case.
Were the claim true, the waiting orphan would be removed and re-inserted,
leaving `orphans` empty and a two-deep chain; instead the orphan entry
remains queued and the chain stays one deep. -/
theorem insert_genesis_skips_orphans_cex :
    genesisLate.orphans = [(1, (2, 1))] ∧ genesisLate.longest_chain_depth = 1 := by
  simp [genesisLate, Chain.insert, Chain.new, alRemove, alInsert, nodesInsert, insertUnder,
    insertUnderList, Chain.longest_chain_depth, Node.depth, depthList]

/-- Claim C2 (amended): orphan resolution runs only after the attach case of
`Chain::insert`.  A genesis-case insertion leaves `orphans` untouched; an
attach-case insertion (on a well-formed orphan map, with a non-empty head)
only ever removes orphan entries, and afterwards no orphan waits on the
newly attached block's id. -/
theorem insert_orphan_resolution {I D : Type} [DecidableEq I] (getId getPrev : D → I) :
    (∀ (s : Chain I D) (b : D), s.head = none → getPrev b = s.genesis_identifier →
      (Chain.insert getId getPrev s b).orphans = s.orphans) ∧
    (∀ (s : Chain I D) (b : D), OrphansWf getPrev s → s.head.isSome → getPrev b ∈ s.nodes →
      ((Chain.insert getId getPrev s b).orphans.map Prod.fst ⊆ s.orphans.map Prod.fst ∧
       getId b ∉ (Chain.insert getId getPrev s b).orphans.map Prod.fst)) := by
  constructor
  · intro s b hh hp
    rw [insert_genesis getId getPrev s b ⟨by simp [hh], hp⟩]
  · intro s b hwf hsome hp
    exact insert_attach_keys_aux getId getPrev s.orphans.length s b (Nat.le_refl _) hwf hsome hp

/-- Claim C2 (witness): attaching block 2 under block 1 in `exOne` resolves
no orphan key into existence: the orphan keys only shrink and key 2 is
absent afterwards. -/
theorem insert_orphan_resolution_witness :
    ((Chain.insert Prod.fst Prod.snd exOne (2, 1)).orphans.map Prod.fst ⊆
      exOne.orphans.map Prod.fst) ∧
    (2 : Nat) ∉ (Chain.insert Prod.fst Prod.snd exOne (2, 1)).orphans.map Prod.fst :=
  (insert_orphan_resolution Prod.fst Prod.snd).2 exOne (2, 1)
    ⟨by decide, by decide⟩ (by decide) (by decide)

/-- Claim C5 (counterexample): after the late-genesis scenario the orphan
map holds an entry whose key (the id of block 1) is present in `nodes`,
contradicting the claimed invariant that every orphan key is absent from
the nodes map. -/
theorem orphan_key_in_nodes_cex :
    genesisLate.orphans.map Prod.fst = [1] ∧ (1 : Nat) ∈ genesisLate.nodes := by
  simp [genesisLate, Chain.insert, Chain.new, alRemove, alInsert, nodesInsert, insertUnder,
    insertUnderList]

/-- Claim C5 (amended): of the specified orphan-map invariant, the parts the
code maintains across every assembler operation are key uniqueness (a
second arrival for the same missing parent replaces the first) and that
every stored block's `prev_id` equals its key; they hold for a fresh chain
and are preserved by `insert` and `pop_head`.  (The remaining part — every
key absent from `nodes` — fails; see the counterexample.) -/
theorem orphans_map_invariant {I D : Type} [DecidableEq I] (getId getPrev : D → I) (g : I) :
    OrphansWf getPrev (Chain.new g : Chain I D) ∧
    (∀ (s : Chain I D) (b : D), OrphansWf getPrev s →
      OrphansWf getPrev (Chain.insert getId getPrev s b)) ∧
    (∀ s : Chain I D, OrphansWf getPrev s →
      OrphansWf getPrev (Chain.pop_head getId s).2) := by
  refine ⟨⟨by simp [Chain.new], by simp [Chain.new]⟩, ?_, ?_⟩
  · intro s b hwf
    exact orphansWf_insert_aux getId getPrev s.orphans.length s b (Nat.le_refl _) hwf
  · intro s hwf
    show OrphansWfL getPrev (Chain.pop_head getId s).2.orphans
    rw [pop_head_orphans]
    exact hwf

/-- Claim C5 (witness): the preserved parts of the invariant, instantiated
on `exOne` with a fresh orphan arrival. -/
theorem orphans_map_invariant_witness :
    OrphansWf Prod.snd (Chain.insert Prod.fst Prod.snd exOne (5, 4)) :=
  (orphans_map_invariant Prod.fst Prod.snd 0).2.1 exOne (5, 4) ⟨by decide, by decide⟩

/-- Claim C10: `Chain::insert` terminates, with recursion depth bounded by
the number of queued orphans: running it with `orphans.length + 1` units of
fuel (one per insertion step) never exhausts the budget, and a single
insertion grows the orphan map by at most the one newly queued entry. -/
theorem insert_terminates {I D : Type} [DecidableEq I] (getId getPrev : D → I)
    (s : Chain I D) (b : D) :
    Chain.insertFuel getId getPrev (s.orphans.length + 1) s b =
      some (Chain.insert getId getPrev s b) ∧
    (Chain.insert getId getPrev s b).orphans.length ≤ s.orphans.length + 1 :=
  insertFuel_aux getId getPrev s.orphans.length s b (Nat.le_refl _)

/-! ## Claim C1 -/

/-- Claim C1: on a chain whose `nodes` keys are distinct, `pop_head`
removes and returns the head block; when the head is childless the forest
becomes empty and only the head's id leaves `nodes`; otherwise the forest
is re-rooted onto the head's child beginning the deepest surviving branch
(first-inserted child on depth ties, children being stored in insertion
order), and `nodes` loses exactly the head's id together with every id of
every other (sibling) child subtree.  `pop_head` returns `None` exactly
when the forest is empty. -/
theorem pop_head_correct {I D : Type} [DecidableEq I] (getId : D → I) (s : Chain I D) :
    ((Chain.pop_head getId s).1 = none ↔ s.head = none) ∧
    (∀ t, s.head = some t → s.nodes.Nodup →
      (Chain.pop_head getId s).1 = some t.block ∧
      (t.next = [] →
        (Chain.pop_head getId s).2.head = none ∧
        (∀ x, x ∈ (Chain.pop_head getId s).2.nodes ↔ x ∈ s.nodes ∧ x ≠ getId t.block)) ∧
      (t.next ≠ [] →
        ∃ k, ∃ hk : k < t.next.length,
          (Chain.pop_head getId s).2.head = some t.next[k] ∧
          (∀ j (hj : j < t.next.length), (t.next[j]).depth ≤ (t.next[k]).depth) ∧
          (∀ j (hj : j < t.next.length), j < k → (t.next[j]).depth < (t.next[k]).depth) ∧
          (∀ x, x ∈ (Chain.pop_head getId s).2.nodes ↔
            x ∈ s.nodes ∧ x ≠ getId t.block ∧
              ∀ j (hj : j < t.next.length), j ≠ k → x ∉ subtreeIds getId t.next[j]))) := by
  constructor
  · exact pop_head_fst_none getId s
  · intro t ht hnd
    cases hidx : longestIdx t.next with
    | none =>
      have hnil : t.next = [] := by
        by_contra hne
        obtain ⟨k, hk, heq, _, _⟩ := longestIdx_spec hne
        rw [heq] at hidx
        exact absurd hidx (by simp)
      refine ⟨by simp [Chain.pop_head, ht, hidx], ?_, ?_⟩
      · intro _
        refine ⟨by simp [Chain.pop_head, ht, hidx], ?_⟩
        intro x
        simp only [Chain.pop_head, ht, hidx]
        rw [hnd.mem_erase_iff]
        tauto
      · intro hne
        exact absurd hnil hne
    | some k =>
      have hne : t.next ≠ [] := by
        intro h
        rw [h] at hidx
        simp [longestIdx, longestAux] at hidx
      obtain ⟨k0, hk0, heq, hmax, hstrict⟩ := longestIdx_spec hne
      have hkk : k = k0 := by
        rw [heq] at hidx
        injection hidx with hidx'
        exact hidx'.symm
      subst hkk
      refine ⟨by simp [Chain.pop_head, ht, hidx], ?_, ?_⟩
      · intro h0
        exact absurd h0 hne
      · intro _
        refine ⟨k, hk0, ?_, hmax, hstrict, ?_⟩
        · simp only [Chain.pop_head, ht, hidx, Option.some.injEq]
          exact List.getD_eq_getElem t.next t hk0
        · intro x
          simp only [Chain.pop_head, ht, hidx]
          rw [removeIds_mem _ _ (hnd.erase _), hnd.mem_erase_iff,
            mem_subtreeIdsList_eraseIdx getId x t.next k hk0]
          constructor
          · rintro ⟨⟨hxid, hxmem⟩, hnotin⟩
            refine ⟨hxmem, hxid, ?_⟩
            intro j hj hjk hxin
            exact hnotin ⟨j, hj, hjk, hxin⟩
          · rintro ⟨hxmem, hxid, hall⟩
            refine ⟨⟨hxid, hxmem⟩, ?_⟩
            rintro ⟨j, hj, hjk, hxin⟩
            exact hall j hj hjk hxin

/-- Claim C1 (witness): `pop_head` on the concrete fork `exFork` — the
instantiated characterization, with the distinct-keys hypothesis checked
concretely. -/
theorem pop_head_correct_witness :
    (Chain.pop_head Prod.fst exFork).1 = some exForkRoot.block ∧
    (exForkRoot.next = [] →
      (Chain.pop_head Prod.fst exFork).2.head = none ∧
      (∀ x, x ∈ (Chain.pop_head Prod.fst exFork).2.nodes ↔
        x ∈ exFork.nodes ∧ x ≠ Prod.fst exForkRoot.block)) ∧
    (exForkRoot.next ≠ [] →
      ∃ k, ∃ hk : k < exForkRoot.next.length,
        (Chain.pop_head Prod.fst exFork).2.head = some exForkRoot.next[k] ∧
        (∀ j (hj : j < exForkRoot.next.length),
          (exForkRoot.next[j]).depth ≤ (exForkRoot.next[k]).depth) ∧
        (∀ j (hj : j < exForkRoot.next.length), j < k →
          (exForkRoot.next[j]).depth < (exForkRoot.next[k]).depth) ∧
        (∀ x, x ∈ (Chain.pop_head Prod.fst exFork).2.nodes ↔
          x ∈ exFork.nodes ∧ x ≠ Prod.fst exForkRoot.block ∧
            ∀ j (hj : j < exForkRoot.next.length), j ≠ k →
              x ∉ subtreeIds Prod.fst exForkRoot.next[j])) :=
  (pop_head_correct Prod.fst exFork).2 exForkRoot rfl (by decide)

/-! ## Drain-loop facts -/

section DrainFacts

variable {I D : Type} [DecidableEq I] (getId getPrev : D → I) (opts : BlockReaderOptions)

theorem drain_lt10 (st : BlockReader I D) (h : st.chain.longest_chain_depth < 10) :
    BlockReader.drain getId opts st = (st, []) := by
  rw [BlockReader.drain]
  simp only [dif_neg (by omega : ¬ 10 ≤ st.chain.longest_chain_depth)]

/-- One fuel-indexed pass over the drain loop: the dispatched heights are
consecutive starting at the entry height, the final height advances by the
number of dispatches, and unless the block cap stopped the loop the final
depth is below the confirmation depth. -/
theorem drain_aux : ∀ (n : Nat) (st : BlockReader I D),
    st.chain.longest_chain_depth ≤ n →
    ((BlockReader.drain getId opts st).2.map Prod.snd =
        List.range' st.height (BlockReader.drain getId opts st).2.length ∧
     (BlockReader.drain getId opts st).1.height =
        st.height + (BlockReader.drain getId opts st).2.length ∧
     (BlockReader.max_height_reached opts (BlockReader.drain getId opts st).1 = false →
        (BlockReader.drain getId opts st).1.chain.longest_chain_depth ≤ 9)) := by
  intro n
  induction n with
  | zero =>
    intro st hn
    rw [drain_lt10 getId opts st (by omega)]
    exact ⟨by simp [List.range'], by simp,
      fun _ => by show st.chain.longest_chain_depth ≤ 9; omega⟩
  | succ n ih =>
    intro st hn
    by_cases hd : st.chain.longest_chain_depth < 10
    · rw [drain_lt10 getId opts st hd]
      exact ⟨by simp [List.range'], by simp,
        fun _ => by show st.chain.longest_chain_depth ≤ 9; omega⟩
    · have hge : 10 ≤ st.chain.longest_chain_depth := by omega
      cases hrx : (Chain.pop_head getId st.chain).1 with
      | none =>
        exfalso
        have := (pop_head_fst_none getId st.chain).mp hrx
        simp [Chain.longest_chain_depth, this] at hge
      | some block =>
        have hlt := Chain.pop_head_depth_lt getId
          (show 1 ≤ st.chain.longest_chain_depth by omega)
        rw [BlockReader.drain]
        simp only [dif_pos hge, hrx]
        by_cases hcap : BlockReader.max_height_reached opts
            { height := st.height + 1, chain := (Chain.pop_head getId st.chain).2 } = true
        · simp only [hcap, if_true, ite_true]
          refine ⟨by simp [List.range'], by simp, ?_⟩
          intro hfalse
          simp at hfalse
        · simp only [hcap, if_false, Bool.false_eq_true, ite_false]
          have ihst := ih { height := st.height + 1, chain := (Chain.pop_head getId st.chain).2 }
            (by
              show (Chain.pop_head getId st.chain).2.longest_chain_depth ≤ n
              omega)
          obtain ⟨ih1, ih2, ih3⟩ := ihst
          refine ⟨?_, ?_, ?_⟩
          · simp only [List.map_cons, ih1, List.length_cons, List.range']
          · simp only [List.length_cons, ih2]
            omega
          · exact ih3
theorem insert_facts (st : BlockReader I D) (b : D) :
    ((BlockReader.insert getId getPrev opts st b).2.map Prod.snd =
        List.range' st.height (BlockReader.insert getId getPrev opts st b).2.length ∧
     (BlockReader.insert getId getPrev opts st b).1.height =
        st.height + (BlockReader.insert getId getPrev opts st b).2.length ∧
     (BlockReader.max_height_reached opts (BlockReader.insert getId getPrev opts st b).1 = false →
        (BlockReader.insert getId getPrev opts st b).1.chain.longest_chain_depth ≤ 9)) :=
  drain_aux getId opts
    ({ st with chain := Chain.insert getId getPrev st.chain b } :
      BlockReader I D).chain.longest_chain_depth
    { st with chain := Chain.insert getId getPrev st.chain b } (Nat.le_refl _)

theorem runFrom_aux : ∀ (blocks : List D) (st : BlockReader I D),
    ((BlockReader.runFrom getId getPrev opts st blocks).2.map Prod.snd =
      List.range' st.height (BlockReader.runFrom getId getPrev opts st blocks).2.length ∧
     (BlockReader.runFrom getId getPrev opts st blocks).1.height =
      st.height + (BlockReader.runFrom getId getPrev opts st blocks).2.length) := by
  intro blocks
  induction blocks with
  | nil =>
    intro st
    simp [BlockReader.runFrom, List.range']
  | cons b bs ih =>
    intro st
    obtain ⟨h1, h2, -⟩ := insert_facts getId getPrev opts st b
    obtain ⟨ih1, ih2⟩ := ih (BlockReader.insert getId getPrev opts st b).1
    simp only [BlockReader.runFrom]
    constructor
    · rw [List.map_append, h1, ih1, h2]
      have happ := List.range'_append st.height
        (BlockReader.insert getId getPrev opts st b).2.length
        (BlockReader.runFrom getId getPrev opts
          (BlockReader.insert getId getPrev opts st b).1 bs).2.length 1
      simp only [one_mul] at happ
      rw [happ]
      congr 1
      rw [List.length_append]
      omega
    · rw [List.length_append]
      omega

/-- A single insertion into an empty forest cannot reach depth 2: it either
creates the genesis node (depth 1) or queues an orphan (depth 0). -/
theorem insert_depth_of_empty (s : Chain I D) (b : D)
    (hhead : s.head = none) (hnodes : s.nodes = []) :
    (Chain.insert getId getPrev s b).longest_chain_depth ≤ 1 := by
  by_cases hg : s.head.isNone ∧ getPrev b = s.genesis_identifier
  · rw [insert_genesis getId getPrev s b hg]
    simp [Chain.longest_chain_depth, Node.depth, depthList]
  · rw [insert_orphan getId getPrev s b hg (by simp [hnodes])]
    simp [Chain.longest_chain_depth, hhead]

/-- A driver-level insertion into a fresh (empty-forest) reader dispatches
nothing and leaves the height unchanged. -/
theorem insert_into_fresh (st : BlockReader I D) (b : D)
    (hhead : st.chain.head = none) (hnodes : st.chain.nodes = []) :
    (BlockReader.insert getId getPrev opts st b).2 = [] ∧
    (BlockReader.insert getId getPrev opts st b).1.height = st.height := by
  have hdep := insert_depth_of_empty getId getPrev st.chain b hhead hnodes
  have h := drain_lt10 getId opts
    { st with chain := Chain.insert getId getPrev st.chain b }
    (by
      show (Chain.insert getId getPrev st.chain b).longest_chain_depth < 10
      omega)
  have hins : BlockReader.insert getId getPrev opts st b =
      ({ st with chain := Chain.insert getId getPrev st.chain b }, []) := h
  rw [hins]
  exact ⟨rfl, rfl⟩

end DrainFacts

/-! ## Claims C3 and C4 -/

/-- Claim C3: for any sequence of driver-level inserts from a fresh reader,
the heights passed to `block_cb` form `0, 1, 2, …` — exactly the range of
the number of dispatches, so each height occurs exactly once, in ascending
order starting at 0, with no gaps or repetitions. -/
theorem block_cb_heights {I D : Type} [DecidableEq I] (getId getPrev : D → I)
    (opts : BlockReaderOptions) (g : I) (blocks : List D) :
    (BlockReader.runFrom getId getPrev opts (BlockReader.init g) blocks).2.map Prod.snd =
      List.range
        (BlockReader.runFrom getId getPrev opts (BlockReader.init g) blocks).2.length := by
  have h := (runFrom_aux getId getPrev opts blocks (BlockReader.init g)).1
  rw [show (BlockReader.init g : BlockReader I D).height = 0 from rfl] at h
  rw [h, List.range_eq_range']

/-- Claim C4: the driver dispatches only while the forest depth is at least
the confirmation depth 10 (a shallower forest drains nothing), and after
any driver-level insert that returns without the block cap being reached
the forest's longest-chain depth is at most 9. -/
theorem confirmation_depth_bound {I D : Type} [DecidableEq I] (getId getPrev : D → I)
    (opts : BlockReaderOptions) :
    (∀ st : BlockReader I D, st.chain.longest_chain_depth < 10 →
      (BlockReader.drain getId opts st).2 = []) ∧
    (∀ (st : BlockReader I D) (b : D),
      BlockReader.max_height_reached opts (BlockReader.insert getId getPrev opts st b).1 = false →
      (BlockReader.insert getId getPrev opts st b).1.chain.longest_chain_depth ≤ 9) := by
  constructor
  · intro st h
    rw [drain_lt10 getId opts st h]
  · intro st b hcap
    exact (insert_facts getId getPrev opts st b).2.2 hcap

/-- Claim C4 (witness): inserting one block into a fresh reader under the
default caps leaves the cap unreached and the depth within bound. -/
theorem confirmation_depth_bound_witness :
    (BlockReader.insert Prod.fst Prod.snd BlockReaderOptions.default
      (BlockReader.init (0 : Nat)) ((1 : Nat), (0 : Nat))).1.chain.longest_chain_depth ≤ 9 :=
  (confirmation_depth_bound Prod.fst Prod.snd BlockReaderOptions.default).2
    (BlockReader.init 0) (1, 0)
    (by
      simp [BlockReader.insert, BlockReader.drain, BlockReader.init, Chain.new, Chain.insert,
        Chain.longest_chain_depth, Node.depth, depthList, alRemove, alInsert, nodesInsert,
        insertUnder, insertUnderList, BlockReader.max_height_reached, BlockReaderOptions.default])

/-! ## Byte-level decoder lemmas -/

theorem fromLE4_toLE4 {n : Nat} (h : n < 4294967296) : fromLE4 (toLE4 n) = n := by
  simp [toLE4, fromLE4]
  omega

theorem takeExact_none {α : Type} : ∀ {n : Nat} {l : List α}, l.length < n →
    takeExact n l = none := by
  intro n
  induction n with
  | zero => intro l h; simp at h
  | succ n ih =>
    intro l h
    match l with
    | [] => rfl
    | a :: l' =>
      simp only [List.length_cons] at h
      simp [takeExact, ih (by omega : l'.length < n)]

theorem encodeRecord_length {h d : List Nat} (hh : h.length = 80) :
    (encodeRecord (h, d)).length = 88 + d.length := by
  simp [encodeRecord, MAGIC, toLE4, hh]
  omega

theorem decodeRecord_encode {h d : List Nat} (rest : List Nat)
    (hh : h.length = 80) (hd : 80 + d.length < 4294967296) :
    decodeRecord (encodeRecord (h, d) ++ rest) = .record (80 + d.length) h d rest := by
  have e1 : encodeRecord (h, d) ++ rest =
      MAGIC ++ (toLE4 (80 + d.length) ++ (h ++ (d ++ rest))) := by
    simp [encodeRecord]
  rw [decodeRecord, e1, takeExact_append _ (by simp [MAGIC])]
  simp only [ne_eq, not_true_eq_false, if_false, ite_false]
  rw [takeExact_append _ (by simp [toLE4])]
  simp only [fromLE4_toLE4 hd]
  rw [takeExact_append _ hh]
  have hlt : ¬ (80 + d.length < 80) := by omega
  simp only [hlt, if_false, ite_false]
  rw [show 80 + d.length - 80 = d.length from by omega, takeExact_append _ rfl]

/-- Unfolding one loop iteration on a well-formed record followed by
anything: the record is read and inserted, and (stop flag clear, no caps)
the loop either reports end of file or continues on the remaining bytes. -/
theorem loop_cons (hashFn : List Nat → List Nat) (opts : BlockReaderOptions)
    (path : String) (idx fileSize : Nat) (st : BlockReader (List Nat) LazyBlock)
    {h d : List Nat} (rest : List Nat) (o : Nat)
    (hh : h.length = 80) (hd : 80 + d.length < 4294967296)
    (hstop : opts.stop_flag = false) (hmb : opts.max_blocks = none)
    (hmo : opts.max_orphans = none) :
    read_blocs_loop hashFn opts path idx fileSize st (encodeRecord (h, d) ++ rest) o =
      (let r := BlockReader.insert (LazyBlock.get_block_id hashFn)
          LazyBlock.get_block_prev_id opts st ⟨idx, path, o, h, d⟩
       if fileSize ≤ o + 4 + 4 + (80 + d.length) then
         ⟨.ok true, r.1, r.2, [(path, st.height, headerTime h)]⟩
       else
         let r2 := read_blocs_loop hashFn opts path idx fileSize r.1 rest
           (o + 4 + 4 + (80 + d.length))
         ⟨r2.result, r2.state, r.2 ++ r2.blockCbs, r2.fileCbs⟩) := by
  rw [read_blocs_loop, decodeRecord_encode rest hh hd]
  simp only [hstop, BlockReader.max_height_reached, hmb, BlockReader.max_orphans_reached, hmo,
    Bool.false_eq_true, if_false, ite_false]

/-- A loop entry whose framing reads hit a magic mismatch reports the file
path and the entry offset. -/
theorem loop_badMagic (hashFn : List Nat → List Nat) (opts : BlockReaderOptions)
    (path : String) (idx fileSize : Nat) (st : BlockReader (List Nat) LazyBlock)
    {rem : List Nat} (offset : Nat) (hdec : decodeRecord rem = .badMagic) :
    read_blocs_loop hashFn opts path idx fileSize st rem offset =
      ⟨.corrupt path offset, st, [], []⟩ := by
  rw [read_blocs_loop]
  split
  · rename_i heq
    rw [hdec] at heq
    simp at heq
  · rfl
  · rename_i size header data rem4 heq
    rw [hdec] at heq
    simp at heq

/-- A loop entry whose framing reads come up short panics. -/
theorem loop_short (hashFn : List Nat → List Nat) (opts : BlockReaderOptions)
    (path : String) (idx fileSize : Nat) (st : BlockReader (List Nat) LazyBlock)
    {rem : List Nat} (offset : Nat) (hdec : decodeRecord rem = .short) :
    read_blocs_loop hashFn opts path idx fileSize st rem offset =
      ⟨.panicked, st, [], []⟩ := by
  rw [read_blocs_loop]
  split
  · rfl
  · rename_i heq
    rw [hdec] at heq
    simp at heq
  · rename_i size header data rem4 heq
    rw [hdec] at heq
    simp at heq

/-- Passing the loop through a well-formed record prefix followed by more
bytes: every record is inserted in order (with its running offset) and the
loop continues on the remaining bytes at the advanced offset. -/
theorem loop_records_append (hashFn : List Nat → List Nat) (opts : BlockReaderOptions)
    (path : String) (idx fileSize : Nat) :
    ∀ (rs : List (List Nat × List Nat)) (rest : List Nat) (o : Nat)
      (st : BlockReader (List Nat) LazyBlock),
      wfRecords rs → opts.stop_flag = false → opts.max_blocks = none →
      opts.max_orphans = none → rest ≠ [] →
      fileSize = o + (encodeRecords rs).length + rest.length →
      read_blocs_loop hashFn opts path idx fileSize st (encodeRecords rs ++ rest) o =
        ⟨(read_blocs_loop hashFn opts path idx fileSize
            (processRecords hashFn opts path idx rs o st).1 rest
            (o + (encodeRecords rs).length)).result,
         (read_blocs_loop hashFn opts path idx fileSize
            (processRecords hashFn opts path idx rs o st).1 rest
            (o + (encodeRecords rs).length)).state,
         (processRecords hashFn opts path idx rs o st).2 ++
           (read_blocs_loop hashFn opts path idx fileSize
             (processRecords hashFn opts path idx rs o st).1 rest
             (o + (encodeRecords rs).length)).blockCbs,
         (read_blocs_loop hashFn opts path idx fileSize
            (processRecords hashFn opts path idx rs o st).1 rest
            (o + (encodeRecords rs).length)).fileCbs⟩ := by
  intro rs
  induction rs with
  | nil =>
    intro rest o st _ _ _ _ _ _
    simp [encodeRecords, processRecords]
  | cons r rs ih =>
    obtain ⟨h, d⟩ := r
    intro rest o st hwf hstop hmb hmo hrest hfs
    have hwfr : wfRecord (h, d) := hwf _ (List.mem_cons_self _ _)
    have hwfs : wfRecords rs := fun r hr => hwf r (List.mem_cons_of_mem _ hr)
    have hlen88 : (encodeRecord (h, d)).length = 88 + d.length := encodeRecord_length hwfr.1
    have hlencons : (encodeRecords ((h, d) :: rs)).length =
        (88 + d.length) + (encodeRecords rs).length := by
      simp [encodeRecords, hlen88]
    rw [show encodeRecords ((h, d) :: rs) ++ rest =
        encodeRecord (h, d) ++ (encodeRecords rs ++ rest) by simp [encodeRecords]]
    rw [loop_cons hashFn opts path idx fileSize st (encodeRecords rs ++ rest) o
      hwfr.1 hwfr.2 hstop hmb hmo]
    have hrpos : 1 ≤ rest.length := List.length_pos.mpr hrest
    have hnoteof : ¬ (fileSize ≤ o + 4 + 4 + (80 + d.length)) := by omega
    simp only [hnoteof, if_false, ite_false]
    rw [ih rest (o + 4 + 4 + (80 + d.length)) _ hwfs hstop hmb hmo hrest (by omega)]
    rw [show o + 4 + 4 + (80 + d.length) + (encodeRecords rs).length =
        o + (encodeRecords ((h, d) :: rs)).length from by omega]
    simp only [processRecords, List.append_assoc]

/-- Running the loop on exactly a non-empty well-formed record list: every
record is inserted, the loop reports a clean end of file, and `file_cb` is
invoked once — with the file path, the reader height as it stood before the
final record's insertion, and the final record's header time. -/
theorem loop_records_exact (hashFn : List Nat → List Nat) (opts : BlockReaderOptions)
    (path : String) (idx fileSize : Nat) :
    ∀ (rs : List (List Nat × List Nat)) (o : Nat)
      (st : BlockReader (List Nat) LazyBlock),
      wfRecords rs → opts.stop_flag = false → opts.max_blocks = none →
      opts.max_orphans = none → ∀ (hne : rs ≠ []),
      fileSize = o + (encodeRecords rs).length →
      read_blocs_loop hashFn opts path idx fileSize st (encodeRecords rs) o =
        ⟨.ok true, (processRecords hashFn opts path idx rs o st).1,
          (processRecords hashFn opts path idx rs o st).2,
          [(path, (processRecords hashFn opts path idx rs.dropLast o st).1.height,
            headerTime (rs.getLast hne).1)]⟩ := by
  intro rs
  induction rs with
  | nil =>
    intro o st _ _ _ _ hne
    exact absurd rfl hne
  | cons r rs ih =>
    obtain ⟨h, d⟩ := r
    intro o st hwf hstop hmb hmo hne hfs
    have hwfr : wfRecord (h, d) := hwf _ (List.mem_cons_self _ _)
    have hwfs : wfRecords rs := fun r hr => hwf r (List.mem_cons_of_mem _ hr)
    have hlen88 : (encodeRecord (h, d)).length = 88 + d.length := encodeRecord_length hwfr.1
    have hlencons : (encodeRecords ((h, d) :: rs)).length =
        (88 + d.length) + (encodeRecords rs).length := by
      simp [encodeRecords, hlen88]
    cases rs with
    | nil =>
      rw [show encodeRecords [(h, d)] = encodeRecord (h, d) ++ [] by simp [encodeRecords]]
      rw [loop_cons hashFn opts path idx fileSize st [] o hwfr.1 hwfr.2 hstop hmb hmo]
      have heof : fileSize ≤ o + 4 + 4 + (80 + d.length) := by
        simp only [hlencons] at hfs
        simp only [encodeRecords, List.length_nil] at hfs
        omega
      simp only [heof, if_true, ite_true]
      simp [processRecords, List.getLast]
    | cons r2 rs2 =>
      obtain ⟨h2, d2⟩ := r2
      have hwfr2 : wfRecord (h2, d2) := hwfs _ (List.mem_cons_self _ _)
      have hlen2 : (encodeRecords ((h2, d2) :: rs2)).length =
          (88 + d2.length) + (encodeRecords rs2).length := by
        simp [encodeRecords, encodeRecord_length hwfr2.1]
      rw [show encodeRecords ((h, d) :: (h2, d2) :: rs2) =
          encodeRecord (h, d) ++ encodeRecords ((h2, d2) :: rs2) from rfl]
      rw [loop_cons hashFn opts path idx fileSize st (encodeRecords ((h2, d2) :: rs2)) o
        hwfr.1 hwfr.2 hstop hmb hmo]
      have hnoteof : ¬ (fileSize ≤ o + 4 + 4 + (80 + d.length)) := by omega
      simp only [hnoteof, if_false, ite_false]
      rw [ih (o + 4 + 4 + (80 + d.length)) _ hwfs hstop hmb hmo (by simp) (by omega)]
      rw [show ((h, d) :: (h2, d2) :: rs2).dropLast =
          (h, d) :: ((h2, d2) :: rs2).dropLast from rfl]
      rw [List.getLast_cons (by simp : (h2, d2) :: rs2 ≠ [])]
      simp only [processRecords]

/-! ## Claims C6, C7, C8, C9 -/

/-- Claim C6: when the 4 bytes at a record boundary differ from the network
magic, `read_blocs` stops with the corrupt-frame outcome carrying the file
path and that record's offset (the byte length of the records already
consumed) — no resync is attempted: nothing further is inserted and no
file callback fires. -/
theorem corrupt_frame_error (hashFn : List Nat → List Nat) (opts : BlockReaderOptions)
    (path : String) (idx : Nat) (rs : List (List Nat × List Nat)) (bad : List Nat)
    (st : BlockReader (List Nat) LazyBlock) (m4 rest' : List Nat)
    (hidx : parseBlkIndex path = some idx) (hwf : wfRecords rs)
    (hstop : opts.stop_flag = false) (hmb : opts.max_blocks = none)
    (hmo : opts.max_orphans = none)
    (hm4 : takeExact 4 bad = some (m4, rest')) (hneq : m4 ≠ MAGIC) :
    read_blocs hashFn opts path (encodeRecords rs ++ bad) st =
      ⟨.corrupt path (encodeRecords rs).length,
       (processRecords hashFn opts path idx rs 0 st).1,
       (processRecords hashFn opts path idx rs 0 st).2, []⟩ := by
  have hbadne : bad ≠ [] := by
    intro hb
    rw [hb] at hm4
    simp [takeExact] at hm4
  have hdec : decodeRecord bad = .badMagic := by
    rw [decodeRecord, hm4]
    simp [hneq]
  simp only [read_blocs, hidx]
  rw [loop_records_append hashFn opts path idx (encodeRecords rs ++ bad).length rs bad 0 st
    hwf hstop hmb hmo hbadne (by simp [List.length_append])]
  rw [loop_badMagic hashFn opts path idx (encodeRecords rs ++ bad).length _
    (0 + (encodeRecords rs).length) hdec]
  simp

/-- Claim C6 (witness): scenario S6 — one valid record followed by 4 zero
bytes; the reported offset is the full length of the first record,
`8 + size = 88` here. -/
theorem corrupt_frame_error_witness :
    read_blocs testHash opts0 blkPath (encodeRecords rec1 ++ [0, 0, 0, 0])
      (BlockReader.init allZeros) =
      ⟨.corrupt blkPath (encodeRecords rec1).length,
       (processRecords testHash opts0 blkPath 0 rec1 0 (BlockReader.init allZeros)).1,
       (processRecords testHash opts0 blkPath 0 rec1 0 (BlockReader.init allZeros)).2, []⟩ ∧
    (encodeRecords rec1).length = 8 + 80 :=
  ⟨corrupt_frame_error testHash opts0 blkPath 0 rec1 [0, 0, 0, 0]
      (BlockReader.init allZeros) [0, 0, 0, 0] [] (by decide) (by decide) rfl rfl rfl
      (by decide) (by decide),
    by decide⟩

/-- Claim C7 (counterexample): an empty file is end of file cleanly at a
record boundary, before any magic bytes; the claim says this yields a clean
`EndOfFile`, but the code `unwrap`s the failed magic decode and panics. -/
theorem empty_file_panics_cex :
    read_blocs testHash opts0 blkPath [] (BlockReader.init allZeros) =
      ⟨.panicked, BlockReader.init allZeros, [], []⟩ := by
  simp [read_blocs, parseBlkIndex, parseDigits, digitVal, blkPath, read_blocs_loop,
    decodeRecord, takeExact]

/-- Claim C7 (amended): end of file at a record boundary after at least one
complete record yields a clean `Ok(true)`; but a file with zero complete
records (EOF before the magic bytes) and any short read inside a framed
record — within the 80 header bytes or within the tx blob — cause a panic
(the decode error is `unwrap`ped), not a `Truncated` error returned to the
caller. -/
theorem eof_and_short_read_behavior (hashFn : List Nat → List Nat)
    (opts : BlockReaderOptions) (path : String) (idx : Nat)
    (hidx : parseBlkIndex path = some idx) (hstop : opts.stop_flag = false)
    (hmb : opts.max_blocks = none) (hmo : opts.max_orphans = none) :
    (∀ (rs : List (List Nat × List Nat)) (st : BlockReader (List Nat) LazyBlock),
      wfRecords rs → rs ≠ [] →
      (read_blocs hashFn opts path (encodeRecords rs) st).result = .ok true) ∧
    (∀ st : BlockReader (List Nat) LazyBlock,
      read_blocs hashFn opts path [] st = ⟨.panicked, st, [], []⟩) ∧
    (∀ (rs : List (List Nat × List Nat)) (st : BlockReader (List Nat) LazyBlock)
        (n : Nat) (t : List Nat), wfRecords rs → t.length < 80 →
      (read_blocs hashFn opts path (encodeRecords rs ++ (MAGIC ++ (toLE4 n ++ t))) st).result =
        .panicked) ∧
    (∀ (rs : List (List Nat × List Nat)) (st : BlockReader (List Nat) LazyBlock)
        (n : Nat) (h d' : List Nat), wfRecords rs → h.length = 80 → 80 ≤ n →
        n < 4294967296 → d'.length < n - 80 →
      (read_blocs hashFn opts path (encodeRecords rs ++ (MAGIC ++ (toLE4 n ++ (h ++ d')))) st).result =
        .panicked) := by
  refine ⟨?_, ?_, ?_, ?_⟩
  · intro rs st hwf hne
    simp only [read_blocs, hidx]
    rw [loop_records_exact hashFn opts path idx (encodeRecords rs).length rs 0 st
      hwf hstop hmb hmo hne (by omega)]
  · intro st
    simp only [read_blocs, hidx]
    exact loop_short hashFn opts path idx 0 st 0 rfl
  · intro rs st n t hwf ht
    have hdec : decodeRecord (MAGIC ++ (toLE4 n ++ t)) = .short := by
      rw [decodeRecord, takeExact_append _ (by simp [MAGIC])]
      simp only [ne_eq, not_true_eq_false, if_false, ite_false]
      rw [takeExact_append _ (by simp [toLE4])]
      simp only [takeExact_none ht]
    simp only [read_blocs, hidx]
    rw [loop_records_append hashFn opts path idx _ rs (MAGIC ++ (toLE4 n ++ t)) 0 st
      hwf hstop hmb hmo (by simp [MAGIC]) (by simp [List.length_append])]
    rw [loop_short hashFn opts path idx _ _ (0 + (encodeRecords rs).length) hdec]
  · intro rs st n h d' hwf hh hn80 hn32 hd'
    have hdec : decodeRecord (MAGIC ++ (toLE4 n ++ (h ++ d'))) = .short := by
      rw [decodeRecord, takeExact_append _ (by simp [MAGIC])]
      simp only [ne_eq, not_true_eq_false, if_false, ite_false]
      rw [takeExact_append _ (by simp [toLE4])]
      have hlt : ¬ (n < 80) := by omega
      simp only [takeExact_append d' hh, fromLE4_toLE4 hn32, hlt, if_false, ite_false,
        takeExact_none hd']
    simp only [read_blocs, hidx]
    rw [loop_records_append hashFn opts path idx _ rs (MAGIC ++ (toLE4 n ++ (h ++ d'))) 0 st
      hwf hstop hmb hmo (by simp [MAGIC]) (by simp [List.length_append])]
    rw [loop_short hashFn opts path idx _ _ (0 + (encodeRecords rs).length) hdec]

/-- Claim C7 (witness): a file of exactly one well-formed record ends
cleanly with `Ok(true)`. -/
theorem eof_and_short_read_behavior_witness :
    (read_blocs testHash opts0 blkPath (encodeRecords rec1)
      (BlockReader.init allZeros)).result = .ok true :=
  (eof_and_short_read_behavior testHash opts0 blkPath 0 (by decide) rfl rfl rfl).1
    rec1 (BlockReader.init allZeros) (by decide) (by simp [rec1])

/-- Claim C8 (counterexample): with the stop flag raised before the run and
a one-record file, `read` returns success with no `block_cb` dispatches —
but the record was nonetheless read and inserted (the forest holds its id),
so the flag is not observed before each record insertion; it is only
checked after one. -/
theorem stop_flag_after_insert_cex :
    (read testHash optsStop [(blkPath, encodeRecord (testHeader 1, []))]
      (BlockReader.init allZeros)).result = .ok false ∧
    (read testHash optsStop [(blkPath, encodeRecord (testHeader 1, []))]
      (BlockReader.init allZeros)).blockCbs = [] ∧
    (read testHash optsStop [(blkPath, encodeRecord (testHeader 1, []))]
      (BlockReader.init allZeros)).state.chain.nodes = [idBytes 1] := by
  simp [read, read_blocs, parseBlkIndex, parseDigits, digitVal, blkPath, read_blocs_loop,
    decodeRecord, takeExact, encodeRecord, MAGIC, toLE4, optsStop, BlockReaderOptions.default,
    BlockReader.max_height_reached, BlockReader.max_orphans_reached, BlockReader.init,
    BlockReader.insert, BlockReader.drain, Chain.new, Chain.insert, Chain.longest_chain_depth,
    Node.depth, depthList, alRemove, alInsert, nodesInsert, insertUnder, insertUnderList,
    LazyBlock.get_block_id, LazyBlock.get_block_prev_id, testHash, testHeader, idBytes,
    allZeros, fromLE4]

/-- Claim C8 (amended): the stop flag is observed after each record
insertion, hence before each subsequent one; with the flag set before
`read()` starts, the run still reads and inserts the first record of the
first file, then stops: the result is success, and from a fresh
(empty-forest) reader nothing is dispatched to `block_cb`. -/
theorem stop_flag_semantics (hashFn : List Nat → List Nat) (opts : BlockReaderOptions)
    (hstop : opts.stop_flag = true) :
    (∀ st : BlockReader (List Nat) LazyBlock,
      read hashFn opts [] st = ⟨.ok true, st, [], []⟩) ∧
    (∀ (path : String) (idx : Nat) (h d tail : List Nat)
        (entries : List (String × List Nat)) (st : BlockReader (List Nat) LazyBlock),
      parseBlkIndex path = some idx → h.length = 80 → 80 + d.length < 4294967296 →
      st.chain.head = none → st.chain.nodes = [] →
      ((read hashFn opts ((path, encodeRecord (h, d) ++ tail) :: entries) st).blockCbs = [] ∧
       ∃ more, (read hashFn opts ((path, encodeRecord (h, d) ++ tail) :: entries) st).result =
         .ok more)) := by
  constructor
  · intro st
    rfl
  · intro path idx h d tail entries st hidx hh hd hhead hnodes
    simp only [read]
    by_cases hcap : BlockReader.max_height_reached opts st = true
    · simp only [hcap, if_true, ite_true]
      exact ⟨by simp, true, rfl⟩
    · simp only [hcap, if_false, Bool.false_eq_true, ite_false]
      have hloop : read_blocs_loop hashFn opts path idx
          (encodeRecord (h, d) ++ tail).length st (encodeRecord (h, d) ++ tail) 0 =
          ⟨.ok false,
            (BlockReader.insert (LazyBlock.get_block_id hashFn)
              LazyBlock.get_block_prev_id opts st ⟨idx, path, 0, h, d⟩).1,
            (BlockReader.insert (LazyBlock.get_block_id hashFn)
              LazyBlock.get_block_prev_id opts st ⟨idx, path, 0, h, d⟩).2, []⟩ := by
        rw [read_blocs_loop, decodeRecord_encode tail hh hd]
        simp only [hstop, if_true, ite_true]
      have hrb : read_blocs hashFn opts path (encodeRecord (h, d) ++ tail) st =
          ⟨.ok false,
            (BlockReader.insert (LazyBlock.get_block_id hashFn)
              LazyBlock.get_block_prev_id opts st ⟨idx, path, 0, h, d⟩).1,
            (BlockReader.insert (LazyBlock.get_block_id hashFn)
              LazyBlock.get_block_prev_id opts st ⟨idx, path, 0, h, d⟩).2, []⟩ := by
        simp only [read_blocs, hidx]
        exact hloop
      rw [hrb]
      have hfresh := insert_into_fresh (LazyBlock.get_block_id hashFn)
        LazyBlock.get_block_prev_id opts st ⟨idx, path, 0, h, d⟩ hhead hnodes
      exact ⟨hfresh.1, false, rfl⟩

/-- Claim C8 (witness): the amended behavior on a concrete one-record file
with the stop flag raised. -/
theorem stop_flag_semantics_witness :
    ((read testHash optsStop [(blkPath, encodeRecord (testHeader 1, []) ++ [])]
      (BlockReader.init allZeros)).blockCbs = [] ∧
     ∃ more, (read testHash optsStop [(blkPath, encodeRecord (testHeader 1, []) ++ [])]
      (BlockReader.init allZeros)).result = .ok more) :=
  (stop_flag_semantics testHash optsStop rfl).2 blkPath 0 (testHeader 1) [] [] []
    (BlockReader.init allZeros) (by decide) (by decide) (by decide) rfl rfl

/-- Claim C9 (counterexample): a ten-record linear chain in one file.  The
tenth insertion raises the depth to the confirmation depth, emitting one
block and advancing the reader height to 1 — yet `file_cb` receives height
0, the value captured before the last record's insertion, not the current
height at EOF.  (The time argument, 10, is the last-read header's time, as
the claim states.) -/
theorem file_cb_height_cex :
    (read_blocs testHash opts0 blkPath (encodeRecords rs10)
      (BlockReader.init allZeros)).fileCbs = [(blkPath, 0, 10)] ∧
    (read_blocs testHash opts0 blkPath (encodeRecords rs10)
      (BlockReader.init allZeros)).state.height = 1 := by
  have hpb : parseBlkIndex blkPath = some 0 := by decide
  have hrw := loop_records_exact testHash opts0 blkPath 0 (encodeRecords rs10).length rs10 0
    (BlockReader.init allZeros) (by decide) rfl rfl rfl (by decide) (by omega)
  have hread : read_blocs testHash opts0 blkPath (encodeRecords rs10)
      (BlockReader.init allZeros) =
      ⟨.ok true, (processRecords testHash opts0 blkPath 0 rs10 0 (BlockReader.init allZeros)).1,
        (processRecords testHash opts0 blkPath 0 rs10 0 (BlockReader.init allZeros)).2,
        [(blkPath,
          (processRecords testHash opts0 blkPath 0 rs10.dropLast 0
            (BlockReader.init allZeros)).1.height,
          headerTime (rs10.getLast (by decide)).1)]⟩ := by
    simp only [read_blocs, hpb]
    exact hrw
  rw [hread]
  constructor
  · simp [processRecords, rs10, testHeader, idBytes, testHash, opts0, BlockReader.init,
      BlockReader.insert, BlockReader.drain, Chain.new, Chain.insert, Chain.pop_head,
      Chain.longest_chain_depth, Node.depth, depthList, alRemove, alInsert, nodesInsert,
      insertUnder, insertUnderList, longestIdx, longestAux, subtreeIds, subtreeIdsList,
      removeIds, Node.block, Node.next, LazyBlock.get_block_id, LazyBlock.get_block_prev_id,
      BlockReader.max_height_reached, BlockReader.max_orphans_reached, allZeros,
      List.dropLast, List.getLast, headerTime, fromLE4, blkPath]
  · simp [processRecords, rs10, testHeader, idBytes, testHash, opts0, BlockReader.init,
      BlockReader.insert, BlockReader.drain, Chain.new, Chain.insert, Chain.pop_head,
      Chain.longest_chain_depth, Node.depth, depthList, alRemove, alInsert, nodesInsert,
      insertUnder, insertUnderList, longestIdx, longestAux, subtreeIds, subtreeIdsList,
      removeIds, Node.block, Node.next, LazyBlock.get_block_id, LazyBlock.get_block_prev_id,
      BlockReader.max_height_reached, BlockReader.max_orphans_reached, allZeros]

/-- Claim C9 (amended): for a fully consumed well-formed file (no stop or
cap firing), `file_cb` is invoked exactly once, with the file path, the
reader height as it stood just before the final record's insertion (the
current height only when that insertion emitted nothing), and the header
time of the last record read from the file. -/
theorem file_cb_content (hashFn : List Nat → List Nat) (opts : BlockReaderOptions)
    (path : String) (idx : Nat) (rs : List (List Nat × List Nat))
    (st : BlockReader (List Nat) LazyBlock)
    (hidx : parseBlkIndex path = some idx) (hwf : wfRecords rs)
    (hstop : opts.stop_flag = false) (hmb : opts.max_blocks = none)
    (hmo : opts.max_orphans = none) (hne : rs ≠ []) :
    read_blocs hashFn opts path (encodeRecords rs) st =
      ⟨.ok true, (processRecords hashFn opts path idx rs 0 st).1,
        (processRecords hashFn opts path idx rs 0 st).2,
        [(path, (processRecords hashFn opts path idx rs.dropLast 0 st).1.height,
          headerTime (rs.getLast hne).1)]⟩ := by
  simp only [read_blocs, hidx]
  exact loop_records_exact hashFn opts path idx (encodeRecords rs).length rs 0 st
    hwf hstop hmb hmo hne (by omega)

/-- Claim C9 (witness): the amended file-callback contract on a concrete
one-record file. -/
theorem file_cb_content_witness :
    read_blocs testHash opts0 blkPath (encodeRecords rec1)
      (BlockReader.init allZeros) =
      ⟨.ok true,
        (processRecords testHash opts0 blkPath 0 rec1 0 (BlockReader.init allZeros)).1,
        (processRecords testHash opts0 blkPath 0 rec1 0 (BlockReader.init allZeros)).2,
        [(blkPath,
          (processRecords testHash opts0 blkPath 0 rec1.dropLast 0
            (BlockReader.init allZeros)).1.height,
          headerTime ((rec1.getLast (by decide)).1))]⟩ :=
  file_cb_content testHash opts0 blkPath 0 rec1 (BlockReader.init allZeros)
    (by decide) (by decide) rfl rfl rfl (by decide)

end BlkReader
